import Mathlib

/-!
# dc-reloader: a shallow embedding of `src/reloader.c`

The loader drives the GD-ROM through firmware calls, finds the data track in the
table of contents, walks an ISO-9660 root directory and streams one file into memory.

Conventions of the embedding.

* The target is a 32-bit machine: `unsigned int`, `unsigned long`, `int` and pointers are
  32 bits wide.  Unsigned values are natural numbers reduced modulo `2 ^ 32` where the C
  arithmetic can wrap; a C `int` result is an `Int`, obtained from its 32-bit pattern
  by `toInt32`.
* `x & 2047`, `x >> 11` and `x & ~2047` on unsigned values are written `x % 2048`,
  `x / 2048` and `x - x % 2048`.
* Memory is split into the loader's own statics (`fh`, `sector_buffer`, the static `toc`
  of `find_root`) and the rest of the address space (`mem`), which holds every
  destination buffer a caller passes in.  A pointer handed to the drive is therefore
  either the scratch buffer or an address of `mem` (`Buf`).
* The firmware is outside the program.  It is modelled by the disc contents, the table of
  contents the disc delivers, the answers `gdc_get_cmd_stat` will give to the coming polls
  (`polls`, a finite script: once it is used up a command completes at its first poll) and
  the values of the two drive-mode calls.  Every firmware call the program makes is
  appended to `trace`.
* `sector_buffer` has 2048 bytes.  A `memcpy` out of it that would read past its end has no
  defined result: `memcpy` is `none` there, and so is the call of `pread` that makes it.
  `pread_run` tells such an end apart from a recursion bound that runs out.
-/

namespace Reloader

/-! ## Constants of the firmware interface -/

def CMD_PIOREAD : Nat := 16
def CMD_GETTOC2 : Nat := 19
def CMD_INIT : Nat := 24
def CMD_GETSES : Nat := 35

def ERR_OK : Int := 0
def ERR_NO_DISC : Int := 1
def ERR_DISC_CHG : Int := 2
def ERR_SYS : Int := 3
def ERR_ABORTED : Int := 4
def ERR_NO_ACTIVE : Int := 5

def NO_ACTIVE : Int := 0
def PROCESSING : Int := 1
def COMPLETED : Int := 2
def ABORTED : Int := 3

/-- The macro `TOC_LBA(n)`: `n & 0x00ffffff`. -/
def TOC_LBA (n : Nat) : Nat := n &&& 0x00ffffff

/-- The macro `TOC_CTRL(n)`: `(n & 0xf0000000) >> 28`. -/
def TOC_CTRL (n : Nat) : Nat := (n &&& 0xf0000000) >>> 28

/-- The macro `TOC_TRACK(n)`: `(n & 0x00ff0000) >> 16`. -/
def TOC_TRACK (n : Nat) : Nat := (n &&& 0x00ff0000) >>> 16

/-- Signed value of a 32-bit pattern (conversion of an unsigned value to `int`). -/
def toInt32 (x : Nat) : Int :=
  if x % 2 ^ 32 < 2 ^ 31 then ((x % 2 ^ 32 : Nat) : Int) else ((x % 2 ^ 32 : Nat) : Int) - 2 ^ 32

/-! ## Data model -/

/-- The struct `CDROM_TOC`.  `entry k` for `0 ≤ k < 99` is the table; the scan indexes the
table with the track numbers the disc declares and does not check them, so `entry` is kept
total: at an index outside `0..98` it stands for the word such an access would find. -/
structure CDROM_TOC where
  entry : Int → Nat
  first : Nat
  last : Nat
  leadout_sector : Nat

/-- A buffer pointer handed to the drive: the static `sector_buffer`, or an address in the
rest of memory. -/
inductive Buf where
  | scratch : Buf
  | user (addr : Nat) : Buf
  deriving DecidableEq, Repr

/-- The parameter block of a submitted command. -/
inductive Param where
  | null : Param
  | toc (session : Int) : Param
  | read (sec num : Nat) (buffer : Buf) (is_test : Nat) : Param
  deriving DecidableEq, Repr

/-- One firmware call, as recorded in the trace. -/
inductive Syscall where
  | init_system : Syscall
  | req_cmd (cmd : Nat) (param : Param) : Syscall
  | get_drv_stat : Syscall
  | change_data_type (p0 p1 p2 p3 : Nat) : Syscall
  deriving DecidableEq, Repr

/-- The file handle `fh`. -/
structure FH where
  sec0 : Nat
  loc : Nat
  len : Nat
  deriving DecidableEq, Repr

/-- Program statics, the memory outside them, and the drive. -/
structure Machine where
  fh : FH
  sector_buffer : Nat → Nat
  toc : CDROM_TOC
  mem : Nat → Nat
  disc : Nat → Nat → Nat
  disc_toc : CDROM_TOC
  drv_type : Nat
  chg_ret : Int
  polls : List (Int × Int)
  trace : List Syscall

/-! ## Device command channel -/

/-- Byte `d` of the run of 2048-byte sectors that starts at sector `sec`
(sector numbers are 32-bit words). -/
def sector_data (disc : Nat → Nat → Nat) (sec d : Nat) : Nat :=
  disc ((sec + d / 2048) % 2 ^ 32) (d % 2048)

/-- What a completed direct-IO read leaves in memory: `num` sectors from `sec` on, stored
from the start of the buffer. -/
def deliver (m : Machine) (sec num : Nat) : Buf → Machine
  | Buf.scratch =>
    { m with sector_buffer := fun i =>
        if i < 2048 * num then sector_data m.disc sec i else m.sector_buffer i }
  | Buf.user a =>
    { m with mem := fun x =>
        if (x + 2 ^ 32 - a) % 2 ^ 32 < 2048 * num
        then sector_data m.disc sec ((x + 2 ^ 32 - a) % 2 ^ 32) else m.mem x }

/-- Effect of a command the drive has completed. -/
def complete (m : Machine) (cmd : Nat) : Param → Machine
  | Param.read sec num buffer _ => if cmd = CMD_PIOREAD then deliver m sec num buffer else m
  | Param.toc _ => if cmd = CMD_GETTOC2 then { m with toc := m.disc_toc } else m
  | Param.null => m

/-- The loop `do { gdc_exec_server(); n = gdc_get_cmd_stat(f, status); } while(n == PROCESSING)`
over the scripted poll answers: returns the first answer `(n, status[0])` with
`n ≠ PROCESSING` and the answers left. -/
def wait_cmd : List (Int × Int) → (Int × Int) × List (Int × Int)
  | [] => ((COMPLETED, 0), [])
  | p :: rest => if p.1 = PROCESSING then wait_cmd rest else (p, rest)

/-- The function `cdrom_exec_cmd`. -/
def cdrom_exec_cmd (m : Machine) (cmd : Nat) (param : Param) : Int × Machine :=
  let m1 := { m with trace := m.trace ++ [Syscall.req_cmd cmd param] }
  let w := wait_cmd m1.polls
  let m2 := { m1 with polls := w.2 }
  if w.1.1 = COMPLETED then (ERR_OK, complete m2 cmd param)
  else if w.1.1 = ABORTED then (ERR_ABORTED, m2)
  else if w.1.1 = NO_ACTIVE then (ERR_NO_ACTIVE, m2)
  else if w.1.2 = 2 then (ERR_NO_DISC, m2)
  else if w.1.2 = 6 then (ERR_DISC_CHG, m2)
  else (ERR_SYS, m2)

/-- The retry loop of `cdrom_reinit`, `timeout` iterations left.  The result is
`(left, r, m)`: `left = none` when the loop was left through `goto exit` (so `rv = r`),
and otherwise the value of `timeout` on leaving the loop. -/
def reinit_loop : Nat → Int → Machine → Option Nat × Int × Machine
  | 0, r, m => (some 0, r, m)
  | timeout + 1, _, m =>
    let x := cdrom_exec_cmd m CMD_INIT Param.null
    if x.1 = 0 then (some (timeout + 1), x.1, x.2)
    else if x.1 = ERR_NO_DISC then (none, x.1, x.2)
    else if x.1 = ERR_SYS then (none, x.1, x.2)
    else reinit_loop timeout x.1 x.2

/-- The function `cdrom_reinit` (`sector_size` is 2048). -/
def cdrom_reinit (m : Machine) : Int × Machine :=
  match reinit_loop (10 * 1000) (-1) m with
  | (none, r, m1) => (r, m1)
  | (some timeout, r, m1) =>
    if timeout ≤ 0 then (r, m1)
    else
      let m2 := { m1 with trace := m1.trace ++ [Syscall.get_drv_stat] }
      let cdxa := decide (m2.drv_type = 32)
      let m3 := { m2 with trace := m2.trace ++
        [Syscall.change_data_type 0 8192 (if cdxa then 2048 else 1024) 2048] }
      if m3.chg_ret < 0 then (ERR_SYS, m3) else (ERR_OK, m3)

/-- The function `cdrom_read_toc`, reading into the static `toc` of `find_root`. -/
def cdrom_read_toc (m : Machine) (session : Int) : Int × Machine :=
  cdrom_exec_cmd m CMD_GETTOC2 (Param.toc session)

/-- The test `buf_addr & 0x01` of `cdrom_read_sectors_ex`; `sector_buffer` is an array of
32-bit words, so its address is even. -/
def Buf.odd : Buf → Bool
  | Buf.scratch => false
  | Buf.user a => decide (a % 2 = 1)

/-- The function `cdrom_read_sectors_ex`. -/
def cdrom_read_sectors_ex (m : Machine) (buffer : Buf) (sector cnt : Nat) : Int × Machine :=
  if buffer.odd then (ERR_SYS, m)
  else cdrom_exec_cmd m CMD_PIOREAD (Param.read sector cnt buffer 0)

/-! ## Table of contents and directory reader -/

/-- The function `ntohlp` on the four bytes at `ptr + 0 .. ptr + 3`; the result is the
32-bit pattern of the returned `int`. -/
def ntohlp (ptr : Nat → Nat) : Nat :=
  (ptr 0 <<< 24) ||| (ptr 1 <<< 16) ||| (ptr 2 <<< 8) ||| ptr 3

/-- The function `fncompare`.  A `const char *` is the function giving the byte at each
offset from the pointer; `fn2len` counts down from the name-length byte of a record. -/
def fncompare (fn1 : Nat → Nat) (fn1len : Int) (fn2 : Nat → Nat) : Nat → Int
  | 0 => if fn1len = 0 then 1 else 0
  | fn2len + 1 =>
    if fn1len = 0 then (if fn2 0 = 59 then 1 else 0)
    else if fn1 0 ≠ fn2 0 then 0
    else fncompare (fun k => fn1 (k + 1)) (fn1len - 1) (fun k => fn2 (k + 1)) fn2len

/-- The loop of `find_datatrack` from track `i` on, `n` bounding the iterations left.
Returns the indices of `toc->entry` it read, in order, and the value returned. -/
def find_datatrack_loop (toc : CDROM_TOC) (last : Int) : Nat → Int → List Int × Nat
  | 0, _ => ([], 0)
  | n + 1, i =>
    if i ≤ last then
      if TOC_CTRL (toc.entry (i - 1)) = 4 then ([i - 1], TOC_LBA (toc.entry (i - 1)))
      else ((i - 1) :: (find_datatrack_loop toc last n (i + 1)).1,
            (find_datatrack_loop toc last n (i + 1)).2)
    else ([], 0)

/-- The function `find_datatrack`, with the entry indices it reads.  Track numbers are
bytes, so 256 bounds the number of iterations (`find_datatrack_scan_bound`). -/
def find_datatrack_scan (toc : CDROM_TOC) : List Int × Nat :=
  find_datatrack_loop toc (TOC_TRACK toc.last) 256 (TOC_TRACK toc.first)

/-- The function `find_datatrack`. -/
def find_datatrack (toc : CDROM_TOC) : Nat := (find_datatrack_scan toc).2

/-- The function `find_root`; the result is `(return value, *psec, *plen, machine)`. -/
def find_root (m : Machine) : Int × Nat × Nat × Machine :=
  let m1 := (cdrom_reinit m).2
  let m2 := (cdrom_read_toc m1 0).2
  let sec := find_datatrack m2.toc
  let m3 := (cdrom_read_sectors_ex m2 Buf.scratch ((sec + 16) % 2 ^ 32) 1).2
  (0, (ntohlp (fun k => m3.sector_buffer (156 + 6 + k)) + 150) % 2 ^ 32,
    ntohlp (fun k => m3.sector_buffer (156 + 14 + k)), m3)

/-- The record loop of `low_find` over the sector held in `sb`, from byte offset `i`;
`some (psec, plen)` when a record matches, `none` when the loop ends without a match.
The first argument bounds the iterations left. -/
def low_find_sector (sb : Nat → Nat) (dirlen isdir : Nat) (fname : Nat → Nat) (fnlen : Int) :
    Nat → Nat → Option (Option (Nat × Nat))
  | 0, _ => none
  | fuel + 1, i =>
    if i < 2048 ∧ i < dirlen ∧ sb i ≠ 0 then
      if sb (i + 25) &&& 2 = isdir ∧
          fncompare fname fnlen (fun k => sb (i + 33 + k)) (sb (i + 32)) ≠ 0 then
        some (some ((ntohlp (fun k => sb (i + 6 + k)) + 150) % 2 ^ 32,
                    ntohlp (fun k => sb (i + 14 + k))))
      else low_find_sector sb dirlen isdir fname fnlen fuel (i + sb i)
    else some none

/-- The sector loop of `low_find`; `none` when the iteration bound runs out. -/
def low_find_loop (isdir : Nat) (fname : Nat → Nat) (fnlen : Int) :
    Nat → Machine → Nat → Nat → Nat → Nat → Option (Int × Nat × Nat × Machine)
  | 0, _, _, _, _, _ => none
  | fuel + 1, m, sec, dirlen, psec, plen =>
    if 0 < dirlen then
      let m1 := (cdrom_read_sectors_ex m Buf.scratch sec 1).2
      match low_find_sector m1.sector_buffer dirlen isdir fname fnlen 2049 0 with
      | none => none
      | some (some found) => some (0, found.1, found.2, m1)
      | some none =>
        low_find_loop isdir fname fnlen fuel m1 ((sec + 1) % 2 ^ 32)
          (dirlen - (if 2048 < dirlen then 2048 else dirlen)) psec plen
    else some (-3, psec, plen, m)

/-- The function `low_find`; `psec` and `plen` are the values `*psec` and `*plen` hold on
entry and the result is `(return value, *psec, *plen, machine)`.  The iteration bounds
are never used up (`low_find_total`). -/
def low_find (m : Machine) (sec dirlen : Nat) (isdir : Int) (psec plen : Nat)
    (fname : Nat → Nat) (fnlen : Int) : Option (Int × Nat × Nat × Machine) :=
  low_find_loop (if isdir ≠ 0 then 2 else 0) fname fnlen (dirlen / 2048 + 2) m sec dirlen psec plen

/-! ## File access layer -/

/-- The function `open`; the results of `find_root` and `low_find` are dropped. -/
def open_file (m : Machine) (path : Nat → Nat) (path_len : Int) : Option (Int × Machine) :=
  let x := find_root m
  match low_find x.2.2.2 x.2.1 x.2.2.1 0 x.2.1 x.2.2.1 path path_len with
  | none => none
  | some y => some (0, { y.2.2.2 with fh := { sec0 := y.2.1, loc := 0, len := y.2.2.1 } })

/-- The function `memcpy` as `pread` calls it, with the scratch buffer as source:
destination byte `k` receives the byte at `src + k` of the scratch buffer, for `k < count`.
The scratch buffer has 2048 bytes; a copy with `src + count > 2048` reads past its end,
which has no defined result, and is `none`. -/
def memcpy (m : Machine) (dst src count : Nat) : Option Machine :=
  if src + count ≤ 2048 then
    some { m with mem := fun x =>
      if (x + 2 ^ 32 - dst) % 2 ^ 32 < count
      then m.sector_buffer (src + (x + 2 ^ 32 - dst) % 2 ^ 32) else m.mem x }
  else none

/-- The part of `pread` after the whole-sector step; `self` is `pread` itself, for the two
recursive calls, and `t` the 32-bit pattern of the local `t`.  There is no result (`none`)
when a recursive call has none or when the copy overruns the scratch buffer. -/
def pread_tail (self : Machine → Nat → Nat → Nat → Option (Int × Machine))
    (m : Machine) (buf nbyte offset t : Nat) : Option (Int × Machine) :=
  if nbyte = 0 then some (toInt32 t, m)
  else if 2048 < (offset % 2048 + nbyte) % 2 ^ 32 then
    match self m buf (2048 - offset % 2048) offset with
    | none => none
    | some x =>
      if x.1 < 0 then some x
      else
        match self x.2 ((buf + x.1.toNat) % 2 ^ 32) ((nbyte + 2 ^ 32 - x.1.toNat) % 2 ^ 32)
            ((offset + x.1.toNat) % 2 ^ 32) with
        | none => none
        | some y =>
          if y.1 < 0 then some y else some (toInt32 (t + x.1.toNat + y.1.toNat), y.2)
  else
    let x := cdrom_read_sectors_ex m Buf.scratch ((m.fh.sec0 + offset / 2048) % 2 ^ 32) 1
    if x.1 ≠ 0 then some x
    else
      match memcpy x.2 buf (offset % 2048) nbyte with
      | none => none
      | some m1 => some (toInt32 (t + nbyte), m1)

/-- The function `pread` with a bound on the depth of the recursion; `none` when the
bound runs out or when the call ends in a copy that overruns the scratch buffer. -/
def pread_fuel : Nat → Machine → Nat → Nat → Nat → Option (Int × Machine)
  | 0, _, _, _, _ => none
  | fuel + 1, m, buf, nbyte, offset =>
    if m.fh.len ≤ offset then some (0, m)
    else
      let nbyte := if m.fh.len < (offset + nbyte) % 2 ^ 32 then m.fh.len - offset else nbyte
      if 2048 ≤ nbyte ∧ offset % 2048 = 0 then
        let x := cdrom_read_sectors_ex m (Buf.user buf)
          ((m.fh.sec0 + offset / 2048) % 2 ^ 32) (nbyte / 2048)
        if x.1 ≠ 0 then some x
        else
          pread_tail (pread_fuel fuel) x.2 ((buf + (nbyte - nbyte % 2048)) % 2 ^ 32)
            (nbyte % 2048) ((offset + (nbyte - nbyte % 2048)) % 2 ^ 32) (nbyte - nbyte % 2048)
      else pread_tail (pread_fuel fuel) m buf nbyte offset 0

/-- The function `pread`.  The recursion bound `nbyte + 2` is never used up
(`pread_run_total`), so `none` means that the call ends in a copy that overruns the
scratch buffer. -/
def pread (m : Machine) (buf nbyte offset : Nat) : Option (Int × Machine) :=
  pread_fuel (nbyte + 2) m buf nbyte offset

/-- The function `read`. -/
def read (m : Machine) (buf nbyte : Nat) : Option (Int × Machine) :=
  match pread m buf nbyte m.fh.loc with
  | none => none
  | some x =>
    if 0 < x.1 then
      some (x.1, { x.2 with fh := { x.2.fh with loc := (x.2.fh.loc + x.1.toNat) % 2 ^ 32 } })
    else some x

/-! ## Specification vocabulary and sample data -/

/-- A byte string in memory, seen from a pointer to its first byte. -/
def ptr (l : List Nat) : Nat → Nat := fun k => l.getD k 0

/-- The bytes of a string of characters. -/
def bytes (cs : List Char) : List Nat := cs.map Char.toNat

/-- The direct-IO reads `(sector, count, buffer)` among the firmware calls of a trace. -/
def reads_of : List Syscall → List (Nat × Nat × Buf)
  | [] => []
  | Syscall.req_cmd cmd (Param.read sec num buffer _) :: rest =>
    if cmd = CMD_PIOREAD then (sec, num, buffer) :: reads_of rest else reads_of rest
  | _ :: rest => reads_of rest

/-- Big-endian value of four bytes. -/
def be32 (b0 b1 b2 b3 : Nat) : Nat := b0 * 2 ^ 24 + b1 * 2 ^ 16 + b2 * 2 ^ 8 + b3

/-- The four bytes of a 32-bit value, most significant first. -/
def be_bytes (v : Nat) : List Nat := [v / 2 ^ 24 % 256, v / 2 ^ 16 % 256, v / 2 ^ 8 % 256, v % 256]

/-- The four bytes of a 32-bit value, least significant first. -/
def le_bytes (v : Nat) : List Nat := [v % 256, v / 2 ^ 8 % 256, v / 2 ^ 16 % 256, v / 2 ^ 24 % 256]

/-- An ISO-9660 directory record for an extent at logical block `lba` of `size` bytes:
length byte, both-endian extent and size, seven date bytes, flags, the name length at
offset 32 and the name at offset 33, padded to an even length. -/
def mk_record (lba size flags : Nat) (name : List Nat) : List Nat :=
  [33 + name.length + (1 - name.length % 2), 0] ++ le_bytes lba ++ be_bytes lba ++
    le_bytes size ++ be_bytes size ++ [0, 0, 0, 0, 0, 0, 0] ++ [flags, 0, 0, 1, 0, 0, 1] ++
    [name.length] ++ name ++ List.replicate (1 - name.length % 2) 0

/-- A table of contents with two audio tracks and a data track, track 3, at block 45150. -/
def sample_toc : CDROM_TOC where
  entry := fun k =>
    if k = 0 then 0x01000096 else if k = 1 then 0x010020D0
    else if k = 2 then 0x4100B05E else 0xffffffff
  first := 0x01010000
  last := 0x41030000
  leadout_sector := 0x0100E000

/-- The root directory of the sample disc: the two self/parent records, a subdirectory
and the file `MAIN.BIN;1` at logical block 102 with 50000 bytes. -/
def sample_root : List (List Nat) :=
  [mk_record 100 4096 2 [0], mk_record 100 4096 2 [1],
   mk_record 101 2048 2 (bytes ['D', 'A', 'T', 'A']),
   mk_record 102 50000 0 (bytes ['M', 'A', 'I', 'N', '.', 'B', 'I', 'N', ';', '1'])]

/-- The sample disc: the volume descriptor at sector 45166 holds the root record
(logical block 100, 4096 bytes) at byte offset 156; the root directory is at sector 250;
every other byte of the disc is determined by its position. -/
def sample_disc : Nat → Nat → Nat := fun s i =>
  if s = 45166 then (if 156 ≤ i ∧ i < 190 then (mk_record 100 4096 2 [0]).getD (i - 156) 0 else 0)
  else if s = 250 then sample_root.flatten.getD i 0
  else if s = 251 then 0
  else (s * 7 + i * 13) % 251

/-- A machine in its initial state with the sample disc in the drive and the given
script of poll answers. -/
def sample_machine (polls : List (Int × Int)) : Machine where
  fh := { sec0 := 0, loc := 0, len := 0 }
  sector_buffer := fun _ => 0
  toc := { entry := fun _ => 0, first := 0, last := 0, leadout_sector := 0 }
  mem := fun _ => 0
  disc := sample_disc
  disc_toc := sample_toc
  drv_type := 32
  chg_ret := 0
  polls := polls
  trace := []

/-- Every scripted poll answer is "processing" or "completed": each command the drive is
given completes. -/
def AllOk (polls : List (Int × Int)) : Prop :=
  ∀ p ∈ polls, p.1 = PROCESSING ∨ p.1 = COMPLETED

/-- The naive byte-by-byte read of `n` bytes from byte `offset` of the extent that starts
at sector `sec0`: byte `k` of the extent is byte `k % 2048` of sector `sec0 + k / 2048`. -/
def naive_read (disc : Nat → Nat → Nat) (sec0 offset n : Nat) : List Nat :=
  (List.range n).map (fun k => disc ((sec0 + (offset + k) / 2048) % 2 ^ 32) ((offset + k) % 2048))

/-- The `n` bytes of memory from address `buf` on. -/
def dest_bytes (m : Machine) (buf n : Nat) : List Nat :=
  (List.range n).map (fun k => m.mem ((buf + k) % 2 ^ 32))

/-- Machine `m1` is `m` after bytes `offset .. offset + n - 1` of the file of `m` have been
stored at `buf .. buf + n - 1`: those addresses hold the bytes of the extent, every other
address is unchanged, the handle and the disc are the same and the remaining poll answers
still let every command complete. -/
def Filled (m : Machine) (buf offset n : Nat) (m1 : Machine) : Prop :=
  m1.fh = m.fh ∧ m1.disc = m.disc ∧ AllOk m1.polls ∧
  ∀ x, m1.mem x =
    if (x + 2 ^ 32 - buf) % 2 ^ 32 < n
    then sector_data m.disc m.fh.sec0 (offset + (x + 2 ^ 32 - buf) % 2 ^ 32) else m.mem x

/-- The sample machine with the handle `open` installs for `MAIN.BIN`. -/
def sample_open (polls : List (Int × Int)) : Machine :=
  { sample_machine polls with fh := { sec0 := 252, loc := 0, len := 50000 } }

/-- The sample machine with a handle for a file of `len` bytes that starts at sector 252. -/
def sample_file (len : Nat) (polls : List (Int × Int)) : Machine :=
  { sample_machine polls with fh := { sec0 := 252, loc := 0, len := len } }

/-- A directory record the reader can take in: a string of bytes whose first byte is its
length and which has room for the 33 fixed bytes and the name announced at offset 32. -/
def rec_ok (r : List Nat) : Bool :=
  decide (r.getD 0 0 = r.length ∧ 33 + r.getD 32 0 ≤ r.length ∧ ∀ b ∈ r, b < 256)

/-- The record is the kind requested (bit 1 of the flags byte at offset 25 equals
`isdir`, which is 2 for a directory and 0 for a file) and its name, the bytes from offset
33 on, matches the query under `fncompare`. -/
def rec_match (isdir : Nat) (fname : Nat → Nat) (fnlen : Int) (r : List Nat) : Bool :=
  decide (r.getD 25 0 &&& 2 = isdir ∧
    fncompare fname fnlen (ptr (r.drop 33)) (r.getD 32 0) ≠ 0)

/-- The extent a record describes, as `low_find` reports it: the big-endian word at offset
6 plus 150 (as a 32-bit value), and the big-endian word at offset 14. -/
def rec_extent (r : List Nat) : Nat × Nat :=
  ((be32 (r.getD 6 0) (r.getD 7 0) (r.getD 8 0) (r.getD 9 0) + 150) % 2 ^ 32,
    be32 (r.getD 14 0) (r.getD 15 0) (r.getD 16 0) (r.getD 17 0))

/-- The sector `sb` holds the records `rs` packed from byte offset `i` on: they end inside
the 2048 bytes, each is well formed, and the byte after the last one, if there is room
for one, is a zero length byte. -/
def records_at (sb : Nat → Nat) (i : Nat) (rs : List (List Nat)) : Prop :=
  i + rs.flatten.length ≤ 2048 ∧ (∀ r ∈ rs, rec_ok r = true) ∧
  (∀ k, k < rs.flatten.length → sb (i + k) = rs.flatten.getD k 0) ∧
  (i + rs.flatten.length < 2048 → sb (i + rs.flatten.length) = 0)

/-- The sectors `sec`, `sec + 1`, ... of the disc hold the groups of records `secs`, one
group per sector, each packed from the start of its sector. -/
def sectors_hold (disc : Nat → Nat → Nat) : Nat → List (List (List Nat)) → Prop
  | _, [] => True
  | sec, s :: rest => records_at (disc (sec % 2 ^ 32)) 0 s ∧ sectors_hold disc (sec + 1) rest

/-- Every record of the layout lies inside an extent of `dirlen` bytes. -/
def inside_extent : Nat → List (List (List Nat)) → Prop
  | _, [] => True
  | dirlen, s :: rest => s.flatten.length ≤ dirlen ∧ inside_extent (dirlen - 2048) rest

/-- The firmware calls that read the sectors `sec`, `sec + 1`, ..., `sec + n - 1` (as 32-bit
sector numbers), one sector each and in this order, into the scratch buffer. -/
def read_cmds (sec n : Nat) : List Syscall :=
  (List.range n).map
    (fun j => Syscall.req_cmd CMD_PIOREAD (Param.read ((sec + j) % 2 ^ 32) 1 Buf.scratch 0))

/-- The outcome and the machine state of the INIT command number `k + 1` when INIT
commands are issued one after another from machine `m`. -/
def init_seq (m : Machine) : Nat → Int × Machine
  | 0 => cdrom_exec_cmd m CMD_INIT Param.null
  | k + 1 => cdrom_exec_cmd (init_seq m k).2 CMD_INIT Param.null

/-- The firmware call that submits an INIT command. -/
def init_cmd : Syscall := Syscall.req_cmd CMD_INIT Param.null

/-- The two firmware calls of the set-data-mode step of `cdrom_reinit` on machine `m`. -/
def set_mode_calls (m : Machine) : List Syscall :=
  [Syscall.get_drv_stat,
   Syscall.change_data_type 0 8192 (if m.drv_type = 32 then 2048 else 1024) 2048]

/-- An INIT outcome after which `cdrom_reinit` tries again: not Ok, NoDisc or
SystemError. -/
def retried (r : Int) : Prop := r ≠ 0 ∧ r ≠ ERR_NO_DISC ∧ r ≠ ERR_SYS

/-! ## Instrumented variants and the boot sequence -/

/-- The function `fncompare` together with the offsets from `fn2` at which it reads a byte
of the on-disc name, in the order of the reads. -/
def fncompare_log (fn1 : Nat → Nat) (fn1len : Int) (fn2 : Nat → Nat) : Nat → Int × List Nat
  | 0 => (if fn1len = 0 then 1 else 0, [])
  | fn2len + 1 =>
    if fn1len = 0 then (if fn2 0 = 59 then 1 else 0, [0])
    else if fn1 0 ≠ fn2 0 then (0, [0])
    else
      ((fncompare_log (fun k => fn1 (k + 1)) (fn1len - 1) (fun k => fn2 (k + 1)) fn2len).1,
        0 :: (fncompare_log (fun k => fn1 (k + 1)) (fn1len - 1)
          (fun k => fn2 (k + 1)) fn2len).2.map (fun k => k + 1))

/-- The record loop of `low_find` together with the indices of the scratch buffer it
reads: `rec[0]` once the tests `i<2048 && i<dirlen` have passed, then `rec[25]`, then,
if the kind is the one requested, `rec[32]` and the name bytes `fncompare` looks at, and
on a match the eight bytes of the extent. -/
def low_find_sector_log (sb : Nat → Nat) (dirlen isdir : Nat) (fname : Nat → Nat)
    (fnlen : Int) : Nat → Nat → Option (Option (Nat × Nat)) × List Nat
  | 0, _ => (none, [])
  | fuel + 1, i =>
    if i < 2048 ∧ i < dirlen then
      if sb i ≠ 0 then
        if sb (i + 25) &&& 2 = isdir then
          if (fncompare_log fname fnlen (fun k => sb (i + 33 + k)) (sb (i + 32))).1 ≠ 0 then
            (some (some ((ntohlp (fun k => sb (i + 6 + k)) + 150) % 2 ^ 32,
                ntohlp (fun k => sb (i + 14 + k)))),
              [i, i + 25, i + 32] ++
                (fncompare_log fname fnlen (fun k => sb (i + 33 + k)) (sb (i + 32))).2.map
                  (fun k => i + 33 + k) ++
                [i + 6, i + 7, i + 8, i + 9, i + 14, i + 15, i + 16, i + 17])
          else
            ((low_find_sector_log sb dirlen isdir fname fnlen fuel (i + sb i)).1,
              [i, i + 25, i + 32] ++
                (fncompare_log fname fnlen (fun k => sb (i + 33 + k)) (sb (i + 32))).2.map
                  (fun k => i + 33 + k) ++
                (low_find_sector_log sb dirlen isdir fname fnlen fuel (i + sb i)).2)
        else
          ((low_find_sector_log sb dirlen isdir fname fnlen fuel (i + sb i)).1,
            [i, i + 25] ++ (low_find_sector_log sb dirlen isdir fname fnlen fuel (i + sb i)).2)
      else (some none, [i])
    else (some none, [])

/-- Well-formedness of the record chain of a sector: every record that starts at an
offset `i < 2048` with a non-zero length byte `r` has `i + r ≤ 2048` and
`r ≥ 33 +` its name-length byte at offset 32.  The first argument bounds the number of
records visited. -/
def chain_ok (sb : Nat → Nat) : Nat → Nat → Bool
  | 0, _ => true
  | fuel + 1, i =>
    if i < 2048 ∧ sb i ≠ 0 then
      decide (i + sb i ≤ 2048 ∧ 33 + sb (i + 32) ≤ sb i) && chain_ok sb fuel (i + sb i)
    else true

/-- The part of `pread` after the whole-sector step, as `pread_tail`, for a `self` that
also returns the list of the calls of `pread` it has made. -/
def pread_tail_calls
    (self : Machine → Nat → Nat → Nat → Option ((Int × Machine) × List (Nat × Nat × Nat)))
    (m : Machine) (buf nbyte offset t : Nat) :
    Option ((Int × Machine) × List (Nat × Nat × Nat)) :=
  if nbyte = 0 then some ((toInt32 t, m), [])
  else if 2048 < (offset % 2048 + nbyte) % 2 ^ 32 then
    match self m buf (2048 - offset % 2048) offset with
    | none => none
    | some x =>
      if x.1.1 < 0 then some x
      else
        match self x.1.2 ((buf + x.1.1.toNat) % 2 ^ 32)
            ((nbyte + 2 ^ 32 - x.1.1.toNat) % 2 ^ 32) ((offset + x.1.1.toNat) % 2 ^ 32) with
        | none => none
        | some y =>
          if y.1.1 < 0 then some (y.1, x.2 ++ y.2)
          else some ((toInt32 (t + x.1.1.toNat + y.1.1.toNat), y.1.2), x.2 ++ y.2)
  else
    let x := cdrom_read_sectors_ex m Buf.scratch ((m.fh.sec0 + offset / 2048) % 2 ^ 32) 1
    if x.1 ≠ 0 then some (x, [])
    else
      match memcpy x.2 buf (offset % 2048) nbyte with
      | none => none
      | some m1 => some ((toInt32 (t + nbyte), m1), [])

/-- The function `pread` as `pread_fuel`, returning in addition the calls of `pread` made,
in order: each as `(depth, nbyte, offset)`, where `depth` is the nesting depth of the call
(the call itself comes first, at depth `depth`) and `nbyte`, `offset` its arguments. -/
def pread_calls : Nat → Nat → Machine → Nat → Nat → Nat →
    Option ((Int × Machine) × List (Nat × Nat × Nat))
  | 0, _, _, _, _, _ => none
  | fuel + 1, depth, m, buf, nbyte, offset =>
    if m.fh.len ≤ offset then some ((0, m), [(depth, nbyte, offset)])
    else
      let n := if m.fh.len < (offset + nbyte) % 2 ^ 32 then m.fh.len - offset else nbyte
      if 2048 ≤ n ∧ offset % 2048 = 0 then
        let x := cdrom_read_sectors_ex m (Buf.user buf)
          ((m.fh.sec0 + offset / 2048) % 2 ^ 32) (n / 2048)
        if x.1 ≠ 0 then some (x, [(depth, nbyte, offset)])
        else
          (pread_tail_calls (pread_calls fuel (depth + 1)) x.2 ((buf + (n - n % 2048)) % 2 ^ 32)
            (n % 2048) ((offset + (n - n % 2048)) % 2 ^ 32) (n - n % 2048)).map
            (fun r => (r.1, (depth, nbyte, offset) :: r.2))
      else
        (pread_tail_calls (pread_calls fuel (depth + 1)) m buf n offset 0).map
          (fun r => (r.1, (depth, nbyte, offset) :: r.2))

/-- The part of `pread` after the whole-sector step, as `pread_tail`, telling apart the two
ways of having no result: `none` when the recursion bound of `self` runs out, `some none`
when the copy overruns the scratch buffer. -/
def pread_tail_run (self : Machine → Nat → Nat → Nat → Option (Option (Int × Machine)))
    (m : Machine) (buf nbyte offset t : Nat) : Option (Option (Int × Machine)) :=
  if nbyte = 0 then some (some (toInt32 t, m))
  else if 2048 < (offset % 2048 + nbyte) % 2 ^ 32 then
    match self m buf (2048 - offset % 2048) offset with
    | none => none
    | some none => some none
    | some (some x) =>
      if x.1 < 0 then some (some x)
      else
        match self x.2 ((buf + x.1.toNat) % 2 ^ 32) ((nbyte + 2 ^ 32 - x.1.toNat) % 2 ^ 32)
            ((offset + x.1.toNat) % 2 ^ 32) with
        | none => none
        | some none => some none
        | some (some y) =>
          if y.1 < 0 then some (some y)
          else some (some (toInt32 (t + x.1.toNat + y.1.toNat), y.2))
  else
    let x := cdrom_read_sectors_ex m Buf.scratch ((m.fh.sec0 + offset / 2048) % 2 ^ 32) 1
    if x.1 ≠ 0 then some (some x)
    else some ((memcpy x.2 buf (offset % 2048) nbyte).map (fun m1 => (toInt32 (t + nbyte), m1)))

/-- The function `pread` as `pread_fuel`, telling apart the two ways of having no result:
`none` when the recursion bound runs out, `some none` when the call ends in a copy that
overruns the scratch buffer, `some (some (r, m))` when it returns `r`. -/
def pread_run : Nat → Machine → Nat → Nat → Nat → Option (Option (Int × Machine))
  | 0, _, _, _, _ => none
  | fuel + 1, m, buf, nbyte, offset =>
    if m.fh.len ≤ offset then some (some (0, m))
    else
      let nbyte := if m.fh.len < (offset + nbyte) % 2 ^ 32 then m.fh.len - offset else nbyte
      if 2048 ≤ nbyte ∧ offset % 2048 = 0 then
        let x := cdrom_read_sectors_ex m (Buf.user buf)
          ((m.fh.sec0 + offset / 2048) % 2 ^ 32) (nbyte / 2048)
        if x.1 ≠ 0 then some (some x)
        else
          pread_tail_run (pread_run fuel) x.2 ((buf + (nbyte - nbyte % 2048)) % 2 ^ 32)
            (nbyte % 2048) ((offset + (nbyte - nbyte % 2048)) % 2 ^ 32) (nbyte - nbyte % 2048)
      else pread_tail_run (pread_run fuel) m buf nbyte offset 0

/-- The static `bin`: the address the file is loaded to and control is transferred to. -/
def bin : Nat := 0xac010000

/-- The function `cdrom_init`.  The re-activation of the drive (the write to the control
register and the reads across the BIOS window) touches neither the state of the loader
nor the firmware interface and is left out. -/
def cdrom_init (m : Machine) : Int × Machine :=
  (0, (cdrom_reinit { m with trace := m.trace ++ [Syscall.init_system] }).2)

/-- The loop `while((rsz = read(bin + cur, 2048)) > 0) cur += rsz;` of `boot_the_menu`,
for a destination `dst` and the current value `cur`.  The result is the list of the values
`read` returned, the final `cur` and the machine; `none` when the iteration bound runs
out. -/
def boot_loop (dst : Nat) : Nat → Machine → Nat → Option (List Int × Nat × Machine)
  | 0, _, _ => none
  | fuel + 1, m, cur =>
    match read m ((dst + cur) % 2 ^ 32) 2048 with
    | none => none
    | some x =>
      if 0 < x.1 then
        match boot_loop dst fuel x.2 ((cur + x.1.toNat) % 2 ^ 32) with
        | none => none
        | some y => some (x.1 :: y.1, y.2.1, y.2.2)
      else some ([x.1], cur, x.2)

/-- The function `boot_the_menu` up to the call `go((unsigned int) bin)`: the result is
the address control is transferred to, with the values `read` returned, the final `cur`
and the machine at that point; `none` when the read loop does not end within `fuel`
iterations. -/
def boot_the_menu (fuel : Nat) (m : Machine) : Option (Nat × List Int × Nat × Machine) :=
  match open_file (cdrom_init m).2 (ptr (bytes ['M', 'A', 'I', 'N', '.', 'B', 'I', 'N'])) 8 with
  | none => none
  | some x =>
    match boot_loop bin fuel x.2 0 with
    | none => none
    | some y => some (bin, y)

/-- The values the reads of 2048 bytes return on a file with `rem` bytes left: 2048 for
each whole sector, the size of the last partial sector if there is one, and a final 0. -/
def read_sizes (rem : Nat) : List Int :=
  List.replicate (rem / 2048) 2048 ++ (if rem % 2048 = 0 then [] else [((rem % 2048 : Nat) : Int)])
    ++ [0]

/-- The machine on which `MAIN.BIN` of the sample disc has been opened after device
bring-up. -/
def sample_booted : Machine :=
  match open_file (cdrom_init (sample_machine [])).2
      (ptr (bytes ['M', 'A', 'I', 'N', '.', 'B', 'I', 'N'])) 8 with
  | none => sample_machine []
  | some x => x.2

/-! ## Theorems -/

/-! ### Name comparison -/

theorem ptr_cons_succ (a : Nat) (l : List Nat) : (fun k => ptr (a :: l) (k + 1)) = ptr l := by
  funext k
  simp [ptr]

theorem fncompare_ptr (d : List Nat) : ∀ q : List Nat,
    fncompare (ptr q) (q.length : Int) (ptr d) d.length ≠ 0 ↔
      (d = q ∨ ∃ rest, d = q ++ 59 :: rest) := by
  induction d with
  | nil =>
    intro q
    cases q with
    | nil => simp [fncompare]
    | cons a q =>
      have : ¬ ((q.length : Int) + 1 = 0) := by omega
      simp [fncompare, this]
  | cons b d ih =>
    intro q
    cases q with
    | nil =>
      by_cases hb : b = 59 <;> simp [fncompare, ptr, hb]
    | cons a q =>
      have h0 : ¬ ((q.length : Int) + 1 = 0) := by omega
      by_cases hab : a = b
      · subst hab
        have := ih q
        simp only [fncompare, List.length_cons, Nat.cast_add, Nat.cast_one, h0, if_false,
          ptr_cons_succ, add_sub_cancel_right]
        simp [ptr]
        simpa using this
      · have hba : ¬ b = a := fun h => hab h.symm
        simp [fncompare, ptr, h0, hab, hba]

/-- C6: `fncompare(q, |q|, d, |d|)` is non-zero exactly when the on-disc name `d` equals the
query `q`, or `q` is a proper initial segment of `d` and the byte of `d` right after it is
`;` (59).  So `FOO.BIN;1` matches the query `FOO.BIN` (length 7), it does not match
`FOO.BI` (length 6), and `FOOXBIN;1` does not match `FOO.BIN`. -/
theorem fncompare_version_suffix :
    (∀ q d : List Nat, fncompare (ptr q) (q.length : Int) (ptr d) d.length ≠ 0 ↔
      (d = q ∨ ∃ rest, d = q ++ 59 :: rest)) ∧
    fncompare (ptr (bytes ['F', 'O', 'O', '.', 'B', 'I', 'N'])) 7
      (ptr (bytes ['F', 'O', 'O', '.', 'B', 'I', 'N', ';', '1'])) 9 ≠ 0 ∧
    fncompare (ptr (bytes ['F', 'O', 'O', '.', 'B', 'I'])) 6
      (ptr (bytes ['F', 'O', 'O', '.', 'B', 'I', 'N', ';', '1'])) 9 = 0 ∧
    fncompare (ptr (bytes ['F', 'O', 'O', '.', 'B', 'I', 'N'])) 7
      (ptr (bytes ['F', 'O', 'O', 'X', 'B', 'I', 'N', ';', '1'])) 9 = 0 :=
  ⟨fun q d => fncompare_ptr d q, by decide, by decide, by decide⟩

/-! ### Data-track discovery -/

theorem find_datatrack_loop_spec (toc : CDROM_TOC) (last : Nat) (hl : last ≤ 99) :
    ∀ (n i : Nat), 1 ≤ i → last + 1 ≤ i + n →
      (∀ k ∈ (find_datatrack_loop toc last n i).1, 0 ≤ k ∧ k ≤ 98) ∧
      (∀ t : Nat, i ≤ t → t ≤ last → TOC_CTRL (toc.entry ((t : Int) - 1)) = 4 →
        (∀ u : Nat, i ≤ u → u < t → TOC_CTRL (toc.entry ((u : Int) - 1)) ≠ 4) →
        (find_datatrack_loop toc last n i).2 = TOC_LBA (toc.entry ((t : Int) - 1))) ∧
      ((∀ t : Nat, i ≤ t → t ≤ last → TOC_CTRL (toc.entry ((t : Int) - 1)) ≠ 4) →
        (find_datatrack_loop toc last n i).2 = 0) := by
  intro n
  induction n with
  | zero =>
    intro i _ h
    refine ⟨by simp [find_datatrack_loop], ?_, by simp [find_datatrack_loop]⟩
    intro t h1 h2
    omega
  | succ n ih =>
    intro i hi h
    by_cases hle : (i : Int) ≤ (last : Int)
    · by_cases hc : TOC_CTRL (toc.entry ((i : Int) - 1)) = 4
      · simp only [find_datatrack_loop, hle, hc, if_true]
        refine ⟨?_, ?_, ?_⟩
        · intro k hk
          simp only [List.mem_singleton] at hk
          omega
        · intro t h1 h2 h3 h4
          by_cases hti : t = i
          · subst hti; rfl
          · exact absurd hc (h4 i (le_refl _) (by omega))
        · intro h5
          exact absurd hc (h5 i (le_refl _) (by omega))
      · obtain ⟨ih1, ih2, ih3⟩ := ih (i + 1) (by omega) (by omega)
        simp only [find_datatrack_loop, hle, hc, if_true, if_false]
        have hcast : ((i : Int) + 1) = ((i + 1 : Nat) : Int) := by push_cast; rfl
        rw [hcast]
        refine ⟨?_, ?_, ?_⟩
        · intro k hk
          rcases List.mem_cons.1 hk with hk | hk
          · omega
          · exact ih1 k hk
        · intro t h1 h2 h3 h4
          have hti : t ≠ i := by
            intro e
            subst e
            exact hc h3
          exact ih2 t (by omega) h2 h3 (fun u hu1 hu2 => h4 u (by omega) hu2)
        · intro h5
          exact ih3 (fun t h1 h2 => h5 t (by omega) h2)
    · simp only [find_datatrack_loop, hle, if_false]
      refine ⟨by simp, ?_, by simp⟩
      intro t h1 h2
      omega

/-- C9: when the first and last track numbers of the table of contents satisfy
`1 ≤ first` and `last ≤ 99`, every index of `entry` that `find_datatrack` reads lies in
`0..98`; if `t` is the smallest track number in `[first, last]` whose control nibble is 4,
the result is the low 24 bits of `entry[t-1]`, whatever the other entries hold; and if no
track in `[first, last]` has control nibble 4 (in particular when `first > last`) the
result is 0. -/
theorem find_datatrack_spec (toc : CDROM_TOC)
    (h1 : 1 ≤ TOC_TRACK toc.first) (h2 : TOC_TRACK toc.last ≤ 99) :
    (∀ k ∈ (find_datatrack_scan toc).1, 0 ≤ k ∧ k ≤ 98) ∧
    (∀ t : Nat, TOC_TRACK toc.first ≤ t → t ≤ TOC_TRACK toc.last →
      TOC_CTRL (toc.entry ((t : Int) - 1)) = 4 →
      (∀ u : Nat, TOC_TRACK toc.first ≤ u → u < t → TOC_CTRL (toc.entry ((u : Int) - 1)) ≠ 4) →
      find_datatrack toc = TOC_LBA (toc.entry ((t : Int) - 1))) ∧
    ((∀ t : Nat, TOC_TRACK toc.first ≤ t → t ≤ TOC_TRACK toc.last →
        TOC_CTRL (toc.entry ((t : Int) - 1)) ≠ 4) →
      find_datatrack toc = 0) :=
  find_datatrack_loop_spec toc (TOC_TRACK toc.last) h2 256 (TOC_TRACK toc.first) h1 (by omega)

/-- Witness for C9: in the sample table of contents the only control-nibble-4 entry is
track 3, and `find_datatrack` returns its block address 45150. -/
theorem find_datatrack_spec_witness :
    1 ≤ TOC_TRACK sample_toc.first ∧ TOC_TRACK sample_toc.last ≤ 99 ∧
    (∀ k ∈ (find_datatrack_scan sample_toc).1, 0 ≤ k ∧ k ≤ 98) ∧
    find_datatrack sample_toc = 45150 :=
  ⟨by decide, by decide, (find_datatrack_spec sample_toc (by decide) (by decide)).1,
    (find_datatrack_spec sample_toc (by decide) (by decide)).2.1 3 (by decide) (by decide)
      (by decide) (by
        intro u hu1 hu2
        have hu : u = 1 ∨ u = 2 := by
          have : TOC_TRACK sample_toc.first = 1 := by decide
          omega
        rcases hu with hu | hu <;> subst hu <;> decide)⟩

/-! ### Command channel and root directory -/

theorem ntohlp_eq_be32 (p : Nat → Nat) (h : ∀ k, k < 4 → p k < 256) :
    ntohlp p = be32 (p 0) (p 1) (p 2) (p 3) := by
  have h0 := h 0 (by omega)
  have h1 := h 1 (by omega)
  have h2 := h 2 (by omega)
  have h3 := h 3 (by omega)
  unfold ntohlp be32
  rw [Nat.or_assoc, Nat.or_assoc]
  simp only [Nat.shiftLeft_eq]
  have e3 : p 2 * 2 ^ 8 ||| p 3 = p 2 * 2 ^ 8 + p 3 := by
    rw [Nat.mul_comm, ← Nat.mul_add_lt_is_or (by omega)]
  rw [e3]
  have e2 : p 1 * 2 ^ 16 ||| (p 2 * 2 ^ 8 + p 3) = p 1 * 2 ^ 16 + (p 2 * 2 ^ 8 + p 3) := by
    rw [Nat.mul_comm, ← Nat.mul_add_lt_is_or (by omega)]
  rw [e2]
  have e1 : p 0 * 2 ^ 24 ||| (p 1 * 2 ^ 16 + (p 2 * 2 ^ 8 + p 3)) =
      p 0 * 2 ^ 24 + (p 1 * 2 ^ 16 + (p 2 * 2 ^ 8 + p 3)) := by
    rw [Nat.mul_comm, ← Nat.mul_add_lt_is_or (by omega)]
  rw [e1]
  omega

theorem reads_of_append (l1 l2 : List Syscall) :
    reads_of (l1 ++ l2) = reads_of l1 ++ reads_of l2 := by
  induction l1 with
  | nil => rfl
  | cons a l ih =>
    cases a with
    | req_cmd c p =>
      cases p with
      | read sec num b t =>
        by_cases hc : c = CMD_PIOREAD <;> simp [reads_of, hc, ih]
      | null => simp [reads_of, ih]
      | toc s => simp [reads_of, ih]
    | init_system => simp [reads_of, ih]
    | get_drv_stat => simp [reads_of, ih]
    | change_data_type a b c d => simp [reads_of, ih]

theorem complete_trace (m : Machine) (cmd : Nat) (p : Param) :
    (complete m cmd p).trace = m.trace := by
  cases p with
  | null => rfl
  | toc s => simp only [complete]; split_ifs <;> rfl
  | read sec num b t => simp only [complete]; split_ifs <;> cases b <;> rfl

theorem complete_fh (m : Machine) (cmd : Nat) (p : Param) :
    (complete m cmd p).fh = m.fh := by
  cases p with
  | null => rfl
  | toc s => simp only [complete]; split_ifs <;> rfl
  | read sec num b t => simp only [complete]; split_ifs <;> cases b <;> rfl

theorem cdrom_exec_cmd_trace (m : Machine) (cmd : Nat) (p : Param) :
    (cdrom_exec_cmd m cmd p).2.trace = m.trace ++ [Syscall.req_cmd cmd p] := by
  unfold cdrom_exec_cmd
  simp only
  split_ifs <;> simp [complete_trace]

theorem cdrom_exec_cmd_fh (m : Machine) (cmd : Nat) (p : Param) :
    (cdrom_exec_cmd m cmd p).2.fh = m.fh := by
  unfold cdrom_exec_cmd
  simp only
  split_ifs <;> simp [complete_fh]

theorem cdrom_exec_cmd_range (m : Machine) (cmd : Nat) (p : Param) :
    0 ≤ (cdrom_exec_cmd m cmd p).1 ∧ (cdrom_exec_cmd m cmd p).1 ≤ 5 := by
  unfold cdrom_exec_cmd
  simp only
  split_ifs <;> simp [ERR_OK, ERR_ABORTED, ERR_NO_ACTIVE, ERR_NO_DISC, ERR_DISC_CHG, ERR_SYS]

theorem reinit_loop_trace : ∀ (n : Nat) (r : Int) (m : Machine),
    ∃ l, (reinit_loop n r m).2.2.trace = m.trace ++ l ∧ reads_of l = [] := by
  intro n
  induction n with
  | zero => intro r m; exact ⟨[], by simp [reinit_loop], rfl⟩
  | succ n ih =>
    intro r m
    have ht := cdrom_exec_cmd_trace m CMD_INIT Param.null
    unfold reinit_loop
    simp only
    split_ifs
    · exact ⟨_, ht, rfl⟩
    · exact ⟨_, ht, rfl⟩
    · exact ⟨_, ht, rfl⟩
    · obtain ⟨l, hl1, hl2⟩ := ih (cdrom_exec_cmd m CMD_INIT Param.null).1
        (cdrom_exec_cmd m CMD_INIT Param.null).2
      refine ⟨Syscall.req_cmd CMD_INIT Param.null :: l, ?_, ?_⟩
      · rw [hl1, ht]; simp
      · simpa [reads_of] using hl2

theorem cdrom_reinit_trace (m : Machine) :
    ∃ l, (cdrom_reinit m).2.trace = m.trace ++ l ∧ reads_of l = [] := by
  obtain ⟨l, hl1, hl2⟩ := reinit_loop_trace (10 * 1000) (-1) m
  unfold cdrom_reinit
  rcases h : reinit_loop (10 * 1000) (-1) m with ⟨_ | t, r, m1⟩
  · rw [h] at hl1
    exact ⟨l, hl1, hl2⟩
  · rw [h] at hl1
    simp only at hl1 ⊢
    by_cases ht : t ≤ 0
    · rw [if_pos ht]
      exact ⟨l, hl1, hl2⟩
    · rw [if_neg ht]
      refine ⟨l ++ [Syscall.get_drv_stat, Syscall.change_data_type 0 8192
        (if decide (m1.drv_type = 32) = true then 2048 else 1024) 2048], ?_, ?_⟩
      · by_cases hc : m1.chg_ret < 0 <;> simp [hc, hl1]
      · simp [reads_of_append, hl2, reads_of]

theorem read_scratch_eq (m : Machine) (s n : Nat) :
    cdrom_read_sectors_ex m Buf.scratch s n =
      cdrom_exec_cmd m CMD_PIOREAD (Param.read s n Buf.scratch 0) := by
  simp [cdrom_read_sectors_ex, Buf.odd]

theorem complete_read_toc (m : Machine) (cmd sec num t : Nat) (b : Buf) :
    (complete m cmd (Param.read sec num b t)).toc = m.toc := by
  simp only [complete]; split_ifs <;> cases b <;> rfl

theorem cdrom_exec_cmd_read_toc (m : Machine) (cmd sec num t : Nat) (b : Buf) :
    (cdrom_exec_cmd m cmd (Param.read sec num b t)).2.toc = m.toc := by
  unfold cdrom_exec_cmd
  simp only
  split_ifs <;> simp [complete_read_toc]

theorem find_root_toc (m : Machine) :
    (find_root m).2.2.2.toc = (cdrom_read_toc (cdrom_reinit m).2 0).2.toc := by
  simp only [find_root, read_scratch_eq, cdrom_exec_cmd_read_toc]

/-- C10: for every machine and drive state `find_root` returns 0; the only sector read it
issues is one sector, numbered `find_datatrack(toc) + 16` for the table of contents left by
`cdrom_read_toc`, into the scratch buffer; it outputs as sector the big-endian word at
bytes 162..165 of the scratch buffer plus 150, modulo `2 ^ 32`, and as length the
big-endian word at bytes 170..173, unadjusted (`ntohlp` is the big-endian value of four
bytes).  A volume descriptor encoding the root extent (100, 4096) yields (250, 4096). -/
theorem find_root_spec (m : Machine) :
    (find_root m).1 = 0 ∧
    (find_root m).2.2.2.toc = (cdrom_read_toc (cdrom_reinit m).2 0).2.toc ∧
    (∃ l, (find_root m).2.2.2.trace = m.trace ++ l ∧
      reads_of l = [((find_datatrack (find_root m).2.2.2.toc + 16) % 2 ^ 32, 1, Buf.scratch)]) ∧
    (find_root m).2.1 =
      (ntohlp (fun k => (find_root m).2.2.2.sector_buffer (162 + k)) + 150) % 2 ^ 32 ∧
    (find_root m).2.2.1 = ntohlp (fun k => (find_root m).2.2.2.sector_buffer (170 + k)) ∧
    (∀ p : Nat → Nat, (∀ k, k < 4 → p k < 256) → ntohlp p = be32 (p 0) (p 1) (p 2) (p 3)) ∧
    ((find_root (sample_machine [])).1, (find_root (sample_machine [])).2.1,
      (find_root (sample_machine [])).2.2.1) = (0, 250, 4096) := by
  refine ⟨rfl, find_root_toc m, ?_, rfl, rfl, ntohlp_eq_be32, by decide⟩
  obtain ⟨l, hl1, hl2⟩ := cdrom_reinit_trace m
  rw [find_root_toc]
  refine ⟨l ++ [Syscall.req_cmd CMD_GETTOC2 (Param.toc 0),
    Syscall.req_cmd CMD_PIOREAD (Param.read ((find_datatrack
      (cdrom_read_toc (cdrom_reinit m).2 0).2.toc + 16) % 2 ^ 32) 1 Buf.scratch 0)], ?_, ?_⟩
  · simp only [find_root, read_scratch_eq, cdrom_exec_cmd_trace, cdrom_read_toc, hl1]
    simp
  · simp [reads_of_append, hl2, reads_of, CMD_GETTOC2, CMD_PIOREAD]

/-! ### The file layer: termination and frame of `pread` -/

theorem read_sectors_fh (m : Machine) (b : Buf) (s n : Nat) :
    (cdrom_read_sectors_ex m b s n).2.fh = m.fh := by
  unfold cdrom_read_sectors_ex
  split_ifs
  · rfl
  · exact cdrom_exec_cmd_fh _ _ _

theorem read_sectors_range (m : Machine) (b : Buf) (s n : Nat) :
    0 ≤ (cdrom_read_sectors_ex m b s n).1 ∧ (cdrom_read_sectors_ex m b s n).1 ≤ 5 := by
  unfold cdrom_read_sectors_ex
  split_ifs
  · simp [ERR_SYS]
  · exact cdrom_exec_cmd_range _ _ _

theorem toInt32_of_lt (x : Nat) (h : x < 2 ^ 31) : toInt32 x = (x : Int) := by
  unfold toInt32
  have h1 : x % 2 ^ 32 = x := Nat.mod_eq_of_lt (by omega)
  rw [h1, if_pos h]

theorem memcpy_overrun (m : Machine) (dst src count : Nat) (h : 2048 < src + count) :
    memcpy m dst src count = none := by
  unfold memcpy
  rw [if_neg (by omega)]

theorem memcpy_frame (m m1 : Machine) (dst src count : Nat)
    (h : memcpy m dst src count = some m1) : m1.fh = m.fh ∧ m1.trace = m.trace := by
  unfold memcpy at h
  split_ifs at h
  have e := Option.some.inj h
  subst e
  exact ⟨rfl, rfl⟩

/-- The tail of `pread` ends without recursion when nothing is left or the rest lies
inside one sector (modulo `2 ^ 32`). -/
theorem pread_tail_run_leaf (self : Machine → Nat → Nat → Nat → Option (Option (Int × Machine)))
    (m : Machine) (buf n off t : Nat) (h : n = 0 ∨ ¬ 2048 < (off % 2048 + n) % 2 ^ 32) :
    ∃ o, pread_tail_run self m buf n off t = some o ∧ ∀ x, o = some x → x.2.fh = m.fh := by
  unfold pread_tail_run
  by_cases hn : n = 0
  · rw [if_pos hn]
    exact ⟨_, rfl, fun x hx => by rw [← Option.some.inj hx]⟩
  · rw [if_neg hn]
    have h2 : ¬ 2048 < (off % 2048 + n) % 2 ^ 32 := by
      rcases h with h | h
      · exact absurd h hn
      · exact h
    rw [if_neg h2]
    simp only
    split_ifs
    · exact ⟨_, rfl, fun x hx => by rw [← Option.some.inj hx]; exact read_sectors_fh _ _ _ _⟩
    · refine ⟨_, rfl, fun x hx => ?_⟩
      obtain ⟨m1, hm1, hx1⟩ := Option.map_eq_some'.1 hx
      rw [← hx1]
      exact (memcpy_frame _ _ _ _ _ hm1).1.trans (read_sectors_fh _ _ _ _)

/-- The first recursive call of a split read stays inside one sector: it returns a
result between 1 and 2047 at every recursion bound of at least one. -/
theorem pread_run_first (F : Nat) (m : Machine) (buf off : Nat)
    (h1 : off < m.fh.len) (h2 : off % 2048 ≠ 0) :
    ∃ x, pread_run (F + 1) m buf (2048 - off % 2048) off = some (some x) ∧ x.2.fh = m.fh ∧
      1 ≤ x.1 ∧ x.1 ≤ 2047 := by
  unfold pread_run
  rw [if_neg (by omega)]
  simp only
  have hmod := Nat.mod_lt off (show 0 < 2048 by omega)
  set n := (if m.fh.len < (off + (2048 - off % 2048)) % 2 ^ 32 then m.fh.len - off
    else 2048 - off % 2048) with hn
  have hn1 : 1 ≤ n ∧ n ≤ 2048 - off % 2048 := by
    rw [hn]
    split_ifs with hc
    · have := Nat.mod_le (off + (2048 - off % 2048)) (2 ^ 32)
      omega
    · omega
  rw [if_neg (by omega)]
  unfold pread_tail_run
  rw [if_neg (by omega)]
  have hs : ¬ 2048 < (off % 2048 + n) % 2 ^ 32 := by
    have := Nat.mod_le (off % 2048 + n) (2 ^ 32)
    omega
  rw [if_neg hs]
  simp only
  have hr := read_sectors_range m Buf.scratch ((m.fh.sec0 + off / 2048) % 2 ^ 32) 1
  split_ifs with hx
  · exact ⟨_, rfl, read_sectors_fh _ _ _ _, by omega, by omega⟩
  · have hb : off % 2048 + n ≤ 2048 := by omega
    simp only [memcpy, if_pos hb, Option.map_some']
    refine ⟨_, rfl, read_sectors_fh _ _ _ _, ?_, ?_⟩
    · simp only [Nat.zero_add]
      rw [toInt32_of_lt n (by omega)]
      omega
    · simp only [Nat.zero_add]
      rw [toInt32_of_lt n (by omega)]
      omega

/-- One unfolding of `pread`: it ends within the bound, with the handle unchanged if it
returns, as soon as the calls with a smaller count do. -/
theorem pread_run_step (F : Nat) (m : Machine) (buf nbyte off : Nat)
    (ih : ∀ (m1 : Machine) (buf1 nbyte1 off1 : Nat), nbyte1 < nbyte →
      ∃ o, pread_run (F + 1) m1 buf1 nbyte1 off1 = some o ∧ ∀ x, o = some x → x.2.fh = m1.fh) :
    ∃ o, pread_run (F + 2) m buf nbyte off = some o ∧ ∀ x, o = some x → x.2.fh = m.fh := by
  rw [pread_run]
  by_cases hoff : m.fh.len ≤ off
  · rw [if_pos hoff]
    exact ⟨_, rfl, fun x hx => by rw [← Option.some.inj hx]⟩
  rw [if_neg hoff]
  simp only
  set n := (if m.fh.len < (off + nbyte) % 2 ^ 32 then m.fh.len - off else nbyte) with hn
  have hnle : n ≤ nbyte := by
    rw [hn]
    split_ifs with hc
    · have := Nat.mod_le (off + nbyte) (2 ^ 32)
      omega
    · exact le_refl _
  have hsum : (off + n) % 2 ^ 32 ≤ m.fh.len := by
    rw [hn]
    split_ifs with hc
    · have := Nat.mod_le (off + (m.fh.len - off)) (2 ^ 32)
      omega
    · omega
  by_cases hbulk : 2048 ≤ n ∧ off % 2048 = 0
  · rw [if_pos hbulk]
    split_ifs with hx
    · exact ⟨_, rfl, fun x hx => by rw [← Option.some.inj hx]; exact read_sectors_fh _ _ _ _⟩
    · obtain ⟨o, ho1, ho2⟩ := pread_tail_run_leaf (pread_run (F + 1))
        (cdrom_read_sectors_ex m (Buf.user buf) ((m.fh.sec0 + off / 2048) % 2 ^ 32) (n / 2048)).2
        ((buf + (n - n % 2048)) % 2 ^ 32) (n % 2048) ((off + (n - n % 2048)) % 2 ^ 32)
        (n - n % 2048) (Or.inr (by omega))
      exact ⟨o, ho1, fun x hx => by rw [ho2 x hx, read_sectors_fh]⟩
  rw [if_neg hbulk]
  by_cases hsplit : n ≠ 0 ∧ 2048 < (off % 2048 + n) % 2 ^ 32
  · have hmod0 : off % 2048 ≠ 0 := by
      intro h0
      have := Nat.mod_le (off % 2048 + n) (2 ^ 32)
      omega
    obtain ⟨x1, hx1, hx1fh, hx1a, hx1b⟩ := pread_run_first F m buf off (by omega) hmod0
    rw [pread_tail_run, if_neg hsplit.1, if_pos hsplit.2, hx1]
    simp only
    rw [if_neg (by omega)]
    obtain ⟨r, hr⟩ : ∃ r : Nat, x1.1 = (r : Int) := ⟨x1.1.toNat, by omega⟩
    have hr1 : 1 ≤ r ∧ r ≤ 2047 := by omega
    have hrt : x1.1.toNat = r := by omega
    rw [hrt]
    have hsub : ∃ o, pread_run (F + 1) x1.2 ((buf + r) % 2 ^ 32)
        ((n + 2 ^ 32 - r) % 2 ^ 32) ((off + r) % 2 ^ 32) = some o ∧
        ∀ y, o = some y → y.2.fh = x1.2.fh := by
      by_cases hrn : r ≤ n
      · exact ih _ _ _ _ (by omega)
      · rw [pread_run]
        by_cases hoff2 : x1.2.fh.len ≤ (off + r) % 2 ^ 32
        · rw [if_pos hoff2]
          exact ⟨_, rfl, fun x hx => by rw [← Option.some.inj hx]⟩
        rw [if_neg hoff2]
        simp only
        rw [hx1fh]
        have hnc : ¬ m.fh.len < ((off + r) % 2 ^ 32 + (n + 2 ^ 32 - r) % 2 ^ 32) % 2 ^ 32 := by
          omega
        rw [if_neg hnc, if_neg (by omega)]
        obtain ⟨o, ho1, ho2⟩ := pread_tail_run_leaf (pread_run F) x1.2 ((buf + r) % 2 ^ 32)
          ((n + 2 ^ 32 - r) % 2 ^ 32) ((off + r) % 2 ^ 32) 0 (Or.inr (by omega))
        exact ⟨o, ho1, fun y hy => (ho2 y hy).trans hx1fh⟩
    obtain ⟨o, ho1, ho2⟩ := hsub
    rw [ho1]
    cases o with
    | none => exact ⟨none, rfl, fun x hx => by cases hx⟩
    | some y =>
      have hy2 := ho2 y rfl
      simp only
      split_ifs
      · exact ⟨_, rfl, fun x hx => by rw [← Option.some.inj hx, hy2, hx1fh]⟩
      · exact ⟨_, rfl, fun x hx => by rw [← Option.some.inj hx]; simp only; rw [hy2, hx1fh]⟩
  · obtain ⟨o, ho1, ho2⟩ := pread_tail_run_leaf (pread_run (F + 1)) m buf n off 0 (by
      by_cases h0 : n = 0
      · exact Or.inl h0
      · exact Or.inr (fun h => hsplit ⟨h0, h⟩))
    exact ⟨o, ho1, ho2⟩

/-- The recursion of `pread` ends: a recursion bound of the count plus two is never used
up, and a call that returns leaves the handle as it was. -/
theorem pread_run_fuel_total (k : Nat) : ∀ (F : Nat) (m : Machine) (buf nbyte off : Nat),
    nbyte ≤ k → k + 2 ≤ F →
    ∃ o, pread_run F m buf nbyte off = some o ∧ ∀ x, o = some x → x.2.fh = m.fh := by
  induction k with
  | zero =>
    intro F m buf nbyte off hk hF
    obtain ⟨F0, rfl⟩ : ∃ F0, F = F0 + 2 := ⟨F - 2, by omega⟩
    exact pread_run_step F0 m buf nbyte off (fun _ _ _ _ h => by omega)
  | succ k ih =>
    intro F m buf nbyte off hk hF
    obtain ⟨F0, rfl⟩ : ∃ F0, F = F0 + 2 := ⟨F - 2, by omega⟩
    exact pread_run_step F0 m buf nbyte off
      (fun m1 buf1 nbyte1 off1 h => ih (F0 + 1) m1 buf1 nbyte1 off1 (by omega) (by omega))

theorem pread_tail_run_join
    (selfR : Machine → Nat → Nat → Nat → Option (Option (Int × Machine)))
    (self : Machine → Nat → Nat → Nat → Option (Int × Machine))
    (h : ∀ m b n o, (selfR m b n o).join = self m b n o)
    (m : Machine) (buf n off t : Nat) :
    (pread_tail_run selfR m buf n off t).join = pread_tail self m buf n off t := by
  unfold pread_tail_run pread_tail
  by_cases hn : n = 0
  · rw [if_pos hn, if_pos hn]
    rfl
  rw [if_neg hn, if_neg hn]
  by_cases hs : 2048 < (off % 2048 + n) % 2 ^ 32
  · rw [if_pos hs, if_pos hs, ← h m buf (2048 - off % 2048) off]
    rcases selfR m buf (2048 - off % 2048) off with _ | _ | x
    · rfl
    · rfl
    · simp only [Option.join, Option.bind, id]
      by_cases hneg : x.1 < 0
      · rw [if_pos hneg, if_pos hneg]
        rfl
      · rw [if_neg hneg, if_neg hneg, ← h x.2 ((buf + x.1.toNat) % 2 ^ 32)
          ((n + 2 ^ 32 - x.1.toNat) % 2 ^ 32) ((off + x.1.toNat) % 2 ^ 32)]
        rcases selfR x.2 ((buf + x.1.toNat) % 2 ^ 32)
          ((n + 2 ^ 32 - x.1.toNat) % 2 ^ 32) ((off + x.1.toNat) % 2 ^ 32) with _ | _ | y
        · rfl
        · rfl
        · simp only [Option.join, Option.bind, id]
          split_ifs <;> rfl
  · rw [if_neg hs, if_neg hs]
    simp only
    split_ifs
    · rfl
    · rcases memcpy (cdrom_read_sectors_ex m Buf.scratch ((m.fh.sec0 + off / 2048) % 2 ^ 32) 1).2
        buf (off % 2048) n with _ | m1
      · rfl
      · rfl

/-- Forgetting why there is no result turns `pread_run` into `pread_fuel`. -/
theorem pread_run_join : ∀ (F : Nat) (m : Machine) (buf n off : Nat),
    (pread_run F m buf n off).join = pread_fuel F m buf n off := by
  intro F
  induction F with
  | zero => intro m buf n off; rfl
  | succ F ih =>
    intro m buf n off
    rw [pread_run, pread_fuel]
    by_cases h1 : m.fh.len ≤ off
    · rw [if_pos h1, if_pos h1]
      rfl
    rw [if_neg h1, if_neg h1]
    simp only
    generalize (if m.fh.len < (off + n) % 2 ^ 32 then m.fh.len - off else n) = c
    by_cases h2 : 2048 ≤ c ∧ off % 2048 = 0
    · rw [if_pos h2, if_pos h2]
      by_cases h3 : (cdrom_read_sectors_ex m (Buf.user buf)
          ((m.fh.sec0 + off / 2048) % 2 ^ 32) (c / 2048)).1 ≠ 0
      · rw [if_pos h3, if_pos h3]
        rfl
      · rw [if_neg h3, if_neg h3]
        exact pread_tail_run_join _ _ ih _ _ _ _ _
    · rw [if_neg h2, if_neg h2]
      exact pread_tail_run_join _ _ ih _ _ _ _ _

/-- The recursion of `pread` always ends within its bound, for every handle, arguments
and drive behaviour: the call either returns, and then the handle is as it was, or it
ends in a copy that overruns the scratch buffer, and exactly then `pread` is `none`. -/
theorem pread_run_total (m : Machine) (buf nbyte off : Nat) :
    ∃ o, pread_run (nbyte + 2) m buf nbyte off = some o ∧ pread m buf nbyte off = o ∧
      ∀ x, o = some x → x.2.fh = m.fh := by
  obtain ⟨o, ho1, ho2⟩ := pread_run_fuel_total nbyte (nbyte + 2) m buf nbyte off (le_refl _)
    (le_refl _)
  refine ⟨o, ho1, ?_, ho2⟩
  unfold pread
  rw [← pread_run_join, ho1]
  rfl

/-- A call of `pread` that returns leaves the handle as it was. -/
theorem pread_fh (m : Machine) (buf nbyte off : Nat) (x : Int × Machine)
    (h : pread m buf nbyte off = some x) : x.2.fh = m.fh := by
  obtain ⟨o, _, ho2, ho3⟩ := pread_run_total m buf nbyte off
  exact ho3 x (ho2.symm.trans h)

/-! ### The file layer: reads on a drive whose commands complete -/

theorem wait_cmd_ok : ∀ l : List (Int × Int), AllOk l →
    (wait_cmd l).1.1 = COMPLETED ∧ AllOk (wait_cmd l).2 := by
  intro l
  induction l with
  | nil => intro _; exact ⟨rfl, by simp [wait_cmd, AllOk]⟩
  | cons p l ih =>
    intro h
    have hl : AllOk l := fun q hq => h q (List.mem_cons_of_mem _ hq)
    have hp := h p (List.mem_cons_self _ _)
    unfold wait_cmd
    split_ifs with hc
    · exact ih hl
    · rcases hp with hp | hp
      · exact absurd hp hc
      · exact ⟨hp, hl⟩

theorem read_scratch_ok (m : Machine) (s : Nat) (h : AllOk m.polls) :
    (cdrom_read_sectors_ex m Buf.scratch s 1).1 = 0 ∧
    (cdrom_read_sectors_ex m Buf.scratch s 1).2.fh = m.fh ∧
    (cdrom_read_sectors_ex m Buf.scratch s 1).2.disc = m.disc ∧
    (cdrom_read_sectors_ex m Buf.scratch s 1).2.mem = m.mem ∧
    AllOk (cdrom_read_sectors_ex m Buf.scratch s 1).2.polls ∧
    (cdrom_read_sectors_ex m Buf.scratch s 1).2.trace =
      m.trace ++ [Syscall.req_cmd CMD_PIOREAD (Param.read s 1 Buf.scratch 0)] ∧
    ∀ i, i < 2048 →
      (cdrom_read_sectors_ex m Buf.scratch s 1).2.sector_buffer i = sector_data m.disc s i := by
  obtain ⟨h1, h2⟩ := wait_cmd_ok m.polls h
  simp only [cdrom_read_sectors_ex, Buf.odd, cdrom_exec_cmd, h1, if_true, complete, deliver,
    ERR_OK, Bool.false_eq_true, if_false]
  refine ⟨trivial, trivial, trivial, trivial, h2, trivial, ?_⟩
  intro i hi
  simp [hi]

theorem read_user_ok (m : Machine) (a s q : Nat) (h : AllOk m.polls) (ha : a % 2 = 0) :
    (cdrom_read_sectors_ex m (Buf.user a) s q).1 = 0 ∧
    (cdrom_read_sectors_ex m (Buf.user a) s q).2.fh = m.fh ∧
    (cdrom_read_sectors_ex m (Buf.user a) s q).2.disc = m.disc ∧
    AllOk (cdrom_read_sectors_ex m (Buf.user a) s q).2.polls ∧
    ∀ x, (cdrom_read_sectors_ex m (Buf.user a) s q).2.mem x =
      if (x + 2 ^ 32 - a) % 2 ^ 32 < 2048 * q
      then sector_data m.disc s ((x + 2 ^ 32 - a) % 2 ^ 32) else m.mem x := by
  obtain ⟨h1, h2⟩ := wait_cmd_ok m.polls h
  have hodd : (Buf.user a).odd = false := by simp [Buf.odd, ha]
  simp only [cdrom_read_sectors_ex, hodd, cdrom_exec_cmd, h1, if_true, complete, deliver,
    ERR_OK, Bool.false_eq_true, if_false]
  exact ⟨trivial, trivial, trivial, h2, fun _ => trivial⟩


theorem sector_data_same (disc : Nat → Nat → Nat) (sec0 off d : Nat) :
    sector_data disc ((sec0 + off / 2048) % 2 ^ 32) (off % 2048 + d) =
      sector_data disc sec0 (off + d) := by
  unfold sector_data
  have e1 : ((sec0 + off / 2048) % 2 ^ 32 + (off % 2048 + d) / 2048) % 2 ^ 32 =
      (sec0 + (off + d) / 2048) % 2 ^ 32 := by omega
  have e2 : (off % 2048 + d) % 2048 = (off + d) % 2048 := by omega
  rw [e1, e2]

theorem sector_data_bulk (disc : Nat → Nat → Nat) (sec0 off d : Nat)
    (h : off % 2048 = 0) :
    sector_data disc ((sec0 + off / 2048) % 2 ^ 32) d = sector_data disc sec0 (off + d) := by
  unfold sector_data
  have e1 : ((sec0 + off / 2048) % 2 ^ 32 + d / 2048) % 2 ^ 32 =
      (sec0 + (off + d) / 2048) % 2 ^ 32 := by omega
  have e2 : d % 2048 = (off + d) % 2048 := by omega
  rw [e1, e2]

/-- The single-sector path of `pread` when every command completes. -/
theorem pread_tail_single (self : Machine → Nat → Nat → Nat → Option (Int × Machine))
    (m : Machine) (buf n off t : Nat) (hok : AllOk m.polls) (hn : 1 ≤ n)
    (hfit : off % 2048 + n ≤ 2048) (ht : t + n < 2 ^ 31) :
    ∃ m1, pread_tail self m buf n off t = some (((t + n : Nat) : Int), m1) ∧
      Filled m buf off n m1 := by
  obtain ⟨h1, h2, h3, h4, h5, _, h7⟩ :=
    read_scratch_ok m ((m.fh.sec0 + off / 2048) % 2 ^ 32) hok
  unfold pread_tail
  rw [if_neg (by omega)]
  have hs : ¬ 2048 < (off % 2048 + n) % 2 ^ 32 := by
    have := Nat.mod_le (off % 2048 + n) (2 ^ 32)
    omega
  rw [if_neg hs]
  simp only
  rw [if_neg (not_not.2 h1), toInt32_of_lt _ ht]
  simp only [memcpy, if_pos hfit]
  refine ⟨_, rfl, h2, h3, h5, ?_⟩
  · intro x
    simp only [h4]
    split_ifs with hd
    · rw [h7 _ (by omega), sector_data_same]
    · rfl

theorem filled_append (m m1 m2 : Machine) (buf off n1 n2 : Nat) (hbuf : buf < 2 ^ 32)
    (hlen : n1 + n2 ≤ 2 ^ 32)
    (h1 : Filled m buf off n1 m1) (h2 : Filled m1 ((buf + n1) % 2 ^ 32) (off + n1) n2 m2) :
    Filled m buf off (n1 + n2) m2 := by
  obtain ⟨a1, a2, _, a4⟩ := h1
  obtain ⟨b1, b2, b3, b4⟩ := h2
  refine ⟨b1.trans a1, b2.trans a2, b3, ?_⟩
  intro x
  rw [b4 x, a4 x, a1, a2]
  by_cases hd2 : (x + 2 ^ 32 - (buf + n1) % 2 ^ 32) % 2 ^ 32 < n2
  · rw [if_pos hd2, if_pos (by omega)]
    congr 1
    omega
  · rw [if_neg hd2]
    by_cases hd1 : (x + 2 ^ 32 - buf) % 2 ^ 32 < n1
    · rw [if_pos hd1, if_pos (by omega)]
    · rw [if_neg hd1, if_neg (by omega)]


theorem filled_zero (m : Machine) (buf off : Nat) (hok : AllOk m.polls) :
    Filled m buf off 0 m :=
  ⟨rfl, rfl, hok, fun x => by rw [if_neg (by omega)]⟩

/-- A read that does not have to be split - it starts on a sector boundary or stays inside
one sector - is served by the whole-sector transfer and the single-sector path. -/
theorem pread_fuel_nosplit (F : Nat) (m : Machine) (buf count off : Nat)
    (hok : AllOk m.polls) (hbuf : buf < 2 ^ 32) (hoff : off ≤ m.fh.len)
    (hsum : off + count < 2 ^ 32) (hn31 : min count (m.fh.len - off) < 2 ^ 31)
    (hns : off % 2048 = 0 ∨ off % 2048 + min count (m.fh.len - off) ≤ 2048)
    (hpar : 2048 ≤ min count (m.fh.len - off) → off % 2048 = 0 → buf % 2 = 0) :
    ∃ m1, pread_fuel (F + 1) m buf count off =
        some (((min count (m.fh.len - off) : Nat) : Int), m1) ∧
      Filled m buf off (min count (m.fh.len - off)) m1 := by
  rw [pread_fuel]
  by_cases hlen : m.fh.len ≤ off
  · rw [if_pos hlen]
    have h0 : min count (m.fh.len - off) = 0 := by omega
    rw [h0]
    exact ⟨m, rfl, filled_zero m buf off hok⟩
  rw [if_neg hlen]
  simp only
  have hclamp : (if m.fh.len < (off + count) % 2 ^ 32 then m.fh.len - off else count) =
      min count (m.fh.len - off) := by
    rw [Nat.mod_eq_of_lt hsum]
    split_ifs <;> omega
  rw [hclamp]
  generalize hn : min count (m.fh.len - off) = n at hn31 hns hpar ⊢
  have hnle : off + n ≤ m.fh.len := by omega
  by_cases hbulk : 2048 ≤ n ∧ off % 2048 = 0
  · rw [if_pos hbulk]
    obtain ⟨h1, h2, h3, h4, h5⟩ := read_user_ok m buf
      ((m.fh.sec0 + off / 2048) % 2 ^ 32) (n / 2048) hok (hpar hbulk.1 hbulk.2)
    rw [if_neg (not_not.2 h1)]
    have hfill : Filled m buf off (n - n % 2048)
        (cdrom_read_sectors_ex m (Buf.user buf) ((m.fh.sec0 + off / 2048) % 2 ^ 32)
          (n / 2048)).2 := by
      refine ⟨h2, h3, h4, ?_⟩
      intro x
      rw [h5 x]
      have e : 2048 * (n / 2048) = n - n % 2048 := by omega
      rw [e]
      split_ifs
      · exact sector_data_bulk _ _ _ _ hbulk.2
      · rfl
    by_cases hrest : n % 2048 = 0
    · rw [pread_tail, if_pos hrest, toInt32_of_lt _ (by omega)]
      have e : n - n % 2048 = n := by omega
      rw [e] at hfill ⊢
      exact ⟨_, rfl, hfill⟩
    · have e1 : (off + (n - n % 2048)) % 2 ^ 32 = off + (n - n % 2048) :=
        Nat.mod_eq_of_lt (by omega)
      rw [e1]
      obtain ⟨m2, hm2, hf2⟩ := pread_tail_single (pread_fuel F)
        (cdrom_read_sectors_ex m (Buf.user buf) ((m.fh.sec0 + off / 2048) % 2 ^ 32)
          (n / 2048)).2 ((buf + (n - n % 2048)) % 2 ^ 32) (n % 2048) (off + (n - n % 2048))
        (n - n % 2048) h4 (by omega) (by omega) (by omega)
      have e2 : n - n % 2048 + n % 2048 = n := by omega
      rw [hm2, e2]
      have := filled_append m _ m2 buf off (n - n % 2048) (n % 2048) hbuf (by omega) hfill hf2
      rw [e2] at this
      exact ⟨m2, rfl, this⟩
  · rw [if_neg hbulk]
    by_cases hz : n = 0
    · rw [pread_tail, if_pos hz, hz]
      exact ⟨m, rfl, filled_zero m buf off hok⟩
    · obtain ⟨m1, hm1, hf1⟩ := pread_tail_single (pread_fuel F) m buf n off 0 hok
        (by omega) (by omega) (by omega)
      rw [hm1, Nat.zero_add]
      exact ⟨m1, rfl, hf1⟩


/-- Decomposition of `pread` when every command completes: the whole-sector transfer, the
split at the first sector boundary and the single-sector copies together store exactly
the bytes of the extent. -/
theorem pread_fuel_correct (F : Nat) (m : Machine) (buf count off : Nat)
    (hok : AllOk m.polls) (hbuf : buf < 2 ^ 32) (hoff : off ≤ m.fh.len)
    (hsum : off + count < 2 ^ 32) (hn31 : min count (m.fh.len - off) < 2 ^ 31)
    (hpar : 2048 ≤ min count (m.fh.len - off) → off % 2048 = 0 → buf % 2 = 0)
    (hpar2 : off % 2048 ≠ 0 → 4096 ≤ off % 2048 + min count (m.fh.len - off) →
      (buf + (2048 - off % 2048)) % 2 = 0) :
    ∃ m1, pread_fuel (F + 2) m buf count off =
        some (((min count (m.fh.len - off) : Nat) : Int), m1) ∧
      Filled m buf off (min count (m.fh.len - off)) m1 := by
  by_cases hns : off % 2048 = 0 ∨ off % 2048 + min count (m.fh.len - off) ≤ 2048
  · exact pread_fuel_nosplit (F + 1) m buf count off hok hbuf hoff hsum hn31 hns hpar
  have hmod := Nat.mod_lt off (show 0 < 2048 by omega)
  rw [pread_fuel]
  rw [if_neg (by omega)]
  simp only
  have hclamp : (if m.fh.len < (off + count) % 2 ^ 32 then m.fh.len - off else count) =
      min count (m.fh.len - off) := by
    rw [Nat.mod_eq_of_lt hsum]
    split_ifs <;> omega
  rw [hclamp]
  generalize hn : min count (m.fh.len - off) = n at hn31 hns hpar hpar2 ⊢
  have hnle : off + n ≤ m.fh.len := by omega
  rw [if_neg (by omega), pread_tail, if_neg (by omega)]
  have hs : 2048 < (off % 2048 + n) % 2 ^ 32 := by
    rw [Nat.mod_eq_of_lt (by omega)]
    omega
  rw [if_pos hs]
  -- first recursive call: up to the sector boundary
  have hc1 : min (2048 - off % 2048) (m.fh.len - off) = 2048 - off % 2048 := by omega
  obtain ⟨m1, hm1, hf1⟩ := pread_fuel_nosplit F m buf (2048 - off % 2048) off hok hbuf hoff
    (by omega) (by omega) (Or.inr (by omega)) (by omega)
  rw [hc1] at hm1 hf1
  rw [hm1]
  simp only
  rw [if_neg (by omega), Int.toNat_ofNat]
  -- second recursive call: the rest, from the boundary on
  have e1 : (n + 2 ^ 32 - (2048 - off % 2048)) % 2 ^ 32 = n - (2048 - off % 2048) := by omega
  have e2 : (off + (2048 - off % 2048)) % 2 ^ 32 = off + (2048 - off % 2048) :=
    Nat.mod_eq_of_lt (by omega)
  rw [e1, e2]
  have hlen1 : m1.fh.len = m.fh.len := by rw [hf1.1]
  have hc2 : min (n - (2048 - off % 2048)) (m1.fh.len - (off + (2048 - off % 2048))) =
      n - (2048 - off % 2048) := by omega
  obtain ⟨m2, hm2, hf2⟩ := pread_fuel_nosplit F m1 ((buf + (2048 - off % 2048)) % 2 ^ 32)
    (n - (2048 - off % 2048)) (off + (2048 - off % 2048)) hf1.2.2.1
    (Nat.mod_lt _ (by omega)) (by omega) (by omega) (by omega) (Or.inl (by omega))
    (by
      intro h1 _
      have := hpar2 (by omega) (by omega)
      omega)
  rw [hc2] at hm2 hf2
  rw [hm2]
  simp only
  rw [if_neg (by omega), Int.toNat_ofNat, toInt32_of_lt _ (by omega)]
  have e3 : 0 + (2048 - off % 2048) + (n - (2048 - off % 2048)) = n := by omega
  have e4 : 2048 - off % 2048 + (n - (2048 - off % 2048)) = n := by omega
  have := filled_append m m1 m2 buf off (2048 - off % 2048) (n - (2048 - off % 2048)) hbuf
    (by omega) hf1 hf2
  rw [e4] at this
  rw [e3]
  exact ⟨m2, rfl, this⟩

theorem filled_bytes (m m1 : Machine) (buf off n : Nat) (hbuf : buf < 2 ^ 32)
    (hn : n ≤ 2 ^ 32) (h : Filled m buf off n m1) :
    dest_bytes m1 buf n = naive_read m.disc m.fh.sec0 off n := by
  unfold dest_bytes naive_read
  apply List.map_congr_left
  intro k hk
  have hk1 : k < n := List.mem_range.1 hk
  rw [h.2.2.2]
  have e : ((buf + k) % 2 ^ 32 + 2 ^ 32 - buf) % 2 ^ 32 = k := by omega
  rw [e, if_pos hk1]
  rfl


/-! ### The file layer: the claims -/

/-- C1, counterexample: on the opened sample file, with every command completing, a read
of one whole sector at offset 0 into the odd address `0x8c010001` is refused by the
alignment test of `cdrom_read_sectors_ex` before the drive is asked; `pread` returns 3,
stores nothing, and so neither returns 2048 nor leaves the bytes of the extent. -/
theorem pread_odd_destination_counterexample :
    AllOk (sample_open []).polls ∧ 0 ≤ (sample_open []).fh.len ∧ 2048 ≤ (sample_open []).fh.len ∧
    (pread (sample_open []) 0x8c010001 2048 0).map
      (fun x => (x.1, reads_of x.2.trace, dest_bytes x.2 0x8c010001 4)) =
      some (3, [], [0, 0, 0, 0]) ∧
    naive_read (sample_open []).disc 252 0 4 = [7, 20, 33, 46] ∧
    ¬ ∃ m1, pread (sample_open []) 0x8c010001 2048 0 = some (2048, m1) ∧
      dest_bytes m1 0x8c010001 2048 = naive_read (sample_open []).disc 252 0 2048 := by
  refine ⟨by simp [AllOk, sample_open, sample_machine], by decide, by decide, by decide,
    by decide, ?_⟩
  rintro ⟨m1, h, _⟩
  have h3 : (pread (sample_open []) 0x8c010001 2048 0).map (fun x => x.1) = some 3 := by decide
  rw [h] at h3
  simp at h3

/-- C1, amended: for a handle `(sec0, len)`, a destination address `buf`, an offset in
`[0, len]` and a count with `offset + count < 2 ^ 32` whose clamped value
`n = min(count, len - offset)` is below `2 ^ 31`, when every command completes and every
whole-sector transfer `pread` issues has an even destination (`buf` for a read of at least
2048 bytes that starts on a sector boundary, `buf + 2048 - offset % 2048` for an unaligned
read that reaches 2048 bytes past the next boundary), `pread` returns `n`, the `n` bytes
from `buf` on equal the naive byte-by-byte read of bytes `[offset, offset + n)` of the
extent at `sec0`, every other address keeps its content and the handle is unchanged. -/
theorem pread_decomposition (m : Machine) (buf count offset : Nat)
    (hok : AllOk m.polls) (hbuf : buf < 2 ^ 32) (hoff : offset ≤ m.fh.len)
    (hsum : offset + count < 2 ^ 32) (hn31 : min count (m.fh.len - offset) < 2 ^ 31)
    (hpar : 2048 ≤ min count (m.fh.len - offset) → offset % 2048 = 0 → buf % 2 = 0)
    (hpar2 : offset % 2048 ≠ 0 → 4096 ≤ offset % 2048 + min count (m.fh.len - offset) →
      (buf + (2048 - offset % 2048)) % 2 = 0) :
    ∃ m1, pread m buf count offset = some (((min count (m.fh.len - offset) : Nat) : Int), m1) ∧
      dest_bytes m1 buf (min count (m.fh.len - offset)) =
        naive_read m.disc m.fh.sec0 offset (min count (m.fh.len - offset)) ∧
      (∀ x, min count (m.fh.len - offset) ≤ (x + 2 ^ 32 - buf) % 2 ^ 32 → m1.mem x = m.mem x) ∧
      m1.fh = m.fh := by
  obtain ⟨m1, h1, h2⟩ :=
    pread_fuel_correct count m buf count offset hok hbuf hoff hsum hn31 hpar hpar2
  refine ⟨m1, h1, filled_bytes m m1 buf offset _ hbuf (by omega) h2, ?_, h2.1⟩
  intro x hx
  rw [h2.2.2.2 x, if_neg (by omega)]

/-- Witness for C1: 3000 bytes from offset 1000 of the opened sample file, read to
`0x8c010000`. -/
theorem pread_decomposition_witness :
    ∃ m1, pread (sample_open []) 0x8c010000 3000 1000 = some (3000, m1) ∧
      dest_bytes m1 0x8c010000 3000 = naive_read sample_disc 252 1000 3000 := by
  obtain ⟨m1, h1, h2, _⟩ := pread_decomposition (sample_open []) 0x8c010000 3000 1000
    (by simp [AllOk, sample_open, sample_machine]) (by decide) (by decide) (by decide)
    (by decide) (by decide) (by decide)
  exact ⟨m1, h1, h2⟩

/-- C2, the failing input: for a file of `0xFFFFFFFF` bytes the call
`pread(buf, 2048, 0xFFFFF800)` computes `offset + nbyte` modulo `2 ^ 32` as 0, which is not
beyond the length, so the count is not shortened: the call transfers one whole sector
(sector `252 + 0x1FFFFF`) to `buf` and returns 2048, where `min(count, len - offset)` is
2047. -/
theorem pread_clamp_wraps :
    (pread (sample_file 4294967295 []) 0x8c010000 2048 4294965248).map
      (fun x => (x.1, reads_of x.2.trace)) =
      some (2048, [(252 + 2097151, 1, Buf.user 0x8c010000)]) ∧
    (4294965248 + 2048) % 2 ^ 32 = 0 ∧
    min 2048 ((sample_file 4294967295 []).fh.len - 4294965248) = 2047 := by
  refine ⟨by decide, by decide, by decide⟩

/-- C3, the failing input: a sector transfer that fails is reported by
`cdrom_read_sectors_ex` as a positive error code.  With the first command aborted,
`pread(buf, 100, 0)` returns 4 and `read` advances the cursor by 4; with the second
command of the split read `pread(buf, 3000, 1000)` aborted, the code 4 is added to the
1048 bytes already counted, the result is 1052 and `read` advances the cursor by 1052. -/
theorem pread_error_is_positive :
    (pread (sample_open [(3, 0)]) 0x8c010000 100 0).map (fun x => x.1) = some 4 ∧
    (read (sample_open [(3, 0)]) 0x8c010000 100).map (fun x => (x.1, x.2.fh.loc)) =
      some (4, 4) ∧
    (pread (sample_open [(2, 0), (3, 0)]) 0x8c010000 3000 1000).map (fun x => x.1) =
      some 1052 ∧
    (read { sample_open [(2, 0), (3, 0)] with fh := { sec0 := 252, loc := 1000, len := 50000 } }
      0x8c010000 3000).map (fun x => (x.1, x.2.fh.loc)) = some (1052, 2052) := by
  refine ⟨by decide, by decide, by decide, by decide⟩

/-- C4, the failing input: `open` installs the handle of `MAIN.BIN` on the sample disc
(cursor 0, length 50000); `read(buf, 49998)` succeeds and leaves the cursor at 49998; the
next `read(buf + 49998, 2)`, whose sector transfer is aborted, returns the positive code 4
and leaves the cursor at 50002, beyond the length.  The components of the result are the
handle after `open`, then result and cursor of the first read, then result, cursor and
length after the second read. -/
theorem read_cursor_beyond_length :
    (open_file (sample_machine [(2, 0), (2, 0), (2, 0), (2, 0), (2, 0), (2, 0), (3, 0)])
        (ptr (bytes ['M', 'A', 'I', 'N', '.', 'B', 'I', 'N'])) 8).bind
      (fun x => (read x.2 0x8c010000 49998).bind
        (fun y => (read y.2 (0x8c010000 + 49998) 2).map
          (fun z => (x.2.fh, y.1, y.2.fh.loc, z.1, z.2.fh.loc, z.2.fh.len)))) =
      some ({ sec0 := 252, loc := 0, len := 50000 }, 49998, 49998, 4, 50002, 50000) := by
  decide

/-- C5, the failing inputs: on the opened sample file the call
`pread(buf, 0xFFFFFFFF, 49000)`, whose count is not shortened because `offset + nbyte`
wraps, and, with the first transfer aborted, the call `pread(buf, 2, 2047)`, whose second
sub-read gets the count `2 - 4` modulo `2 ^ 32`, both end in a copy that overruns the
scratch buffer: `pread` has no result there, so it does not return with the handle
unchanged.  For every handle state, arguments and drive behaviour the recursion of `pread`
ends within its bound, and a call that returns leaves the three fields of the handle
unchanged; `read(dest, count)` has a result exactly when `pread(dest, count, cursor)` has
one, returns the same value and ends in the state of `pread` with only the cursor changed:
to `cursor + r` (in the 32-bit arithmetic of the field) when the result `r` is positive,
and to the old cursor when `r ≤ 0`. -/
theorem pread_read_frame :
    (pread_run (4294967295 + 2) (sample_open []) 0x8c010000 4294967295 49000).map
      (fun o => o.map (fun x => x.1)) = some none ∧
    (pread (sample_open []) 0x8c010000 4294967295 49000).map (fun x => x.1) = none ∧
    (pread_run (2 + 2) (sample_open [(3, 0)]) 0x8c010000 2 2047).map
      (fun o => o.map (fun x => x.1)) = some none ∧
    (pread (sample_open [(3, 0)]) 0x8c010000 2 2047).map (fun x => x.1) = none ∧
    (∀ (m : Machine) (buf nbyte offset : Nat),
      ∃ o, pread_run (nbyte + 2) m buf nbyte offset = some o ∧
        pread m buf nbyte offset = o ∧ ∀ x, o = some x → x.2.fh = m.fh) ∧
    (∀ (m : Machine) (buf nbyte : Nat),
      read m buf nbyte = (pread m buf nbyte m.fh.loc).map (fun x => (x.1, { x.2 with fh :=
        { sec0 := m.fh.sec0,
          loc := if 0 < x.1 then (m.fh.loc + x.1.toNat) % 2 ^ 32 else m.fh.loc,
          len := m.fh.len } }))) := by
  refine ⟨by decide, by decide, by decide, by decide,
    fun m buf nbyte offset => pread_run_total m buf nbyte offset, ?_⟩
  intro m buf nbyte
  unfold read
  rcases hx : pread m buf nbyte m.fh.loc with _ | x
  · rfl
  · have hfh := pread_fh m buf nbyte m.fh.loc x hx
    simp only [Option.map_some']
    split_ifs with hpos
    · rw [hfh]
    · have e : x.2 = { x.2 with fh := { sec0 := m.fh.sec0, loc := m.fh.loc, len := m.fh.len } } := by
        rw [show ({ sec0 := m.fh.sec0, loc := m.fh.loc, len := m.fh.len } : FH) = x.2.fh from
          hfh.symm]
      rw [← e]

/-! ### Directory search -/

theorem fncompare_congr : ∀ (n : Nat) (fn1 : Nat → Nat) (l : Int) (fn2 fn3 : Nat → Nat),
    (∀ k, k < n → fn2 k = fn3 k) → fncompare fn1 l fn2 n = fncompare fn1 l fn3 n := by
  intro n
  induction n with
  | zero => intro fn1 l fn2 fn3 _; rfl
  | succ n ih =>
    intro fn1 l fn2 fn3 h
    unfold fncompare
    rw [h 0 (by omega)]
    rw [ih (fun k => fn1 (k + 1)) (l - 1) (fun k => fn2 (k + 1)) (fun k => fn3 (k + 1))
      (fun k hk => h (k + 1) (by omega))]

theorem getD_append_left (r rest : List Nat) (k : Nat) (h : k < r.length) :
    (r ++ rest).getD k 0 = r.getD k 0 := by
  simp [List.getD_eq_getElem?_getD, List.getElem?_append_left h]

theorem getD_append_right (r rest : List Nat) (k : Nat) :
    (r ++ rest).getD (r.length + k) 0 = rest.getD k 0 := by
  simp [List.getD_eq_getElem?_getD, List.getElem?_append_right]

theorem ptr_drop (r : List Nat) (n k : Nat) : ptr (r.drop n) k = r.getD (n + k) 0 := by
  simp [ptr, List.getD_eq_getElem?_getD, List.getElem?_drop]


theorem getD_lt_of_ok (r : List Nat) (h : ∀ b ∈ r, b < 256) (k : Nat) (hk : k < r.length) :
    r.getD k 0 < 256 := by
  rw [List.getD_eq_getElem _ _ hk]
  exact h _ (List.getElem_mem hk)

/-- What the record loop sees at a record boundary. -/
theorem record_view (sb : Nat → Nat) (i : Nat) (r : List Nat) (rs : List (List Nat))
    (h : records_at sb i (r :: rs)) (isdir : Nat) (fname : Nat → Nat) (fnlen : Int) :
    i < 2048 ∧ sb i ≠ 0 ∧ sb i = r.length ∧ 33 ≤ r.length ∧
    ((sb (i + 25) &&& 2 = isdir ∧
        fncompare fname fnlen (fun k => sb (i + 33 + k)) (sb (i + 32)) ≠ 0) ↔
      rec_match isdir fname fnlen r = true) ∧
    ((ntohlp (fun k => sb (i + 6 + k)) + 150) % 2 ^ 32, ntohlp (fun k => sb (i + 14 + k))) =
      rec_extent r ∧
    records_at sb (i + r.length) rs := by
  obtain ⟨h1, h2, h3, h4⟩ := h
  have hok := h2 r (List.mem_cons_self _ _)
  simp only [rec_ok, decide_eq_true_eq] at hok
  obtain ⟨ok1, ok2, ok3⟩ := hok
  rw [List.flatten_cons, List.length_append] at h1 h3 h4
  have hbyte : ∀ k, k < r.length → sb (i + k) = r.getD k 0 := by
    intro k hk
    rw [h3 k (by omega), getD_append_left _ _ _ hk]
  have h0 : sb i = r.length := by
    have := hbyte 0 (by omega)
    rw [Nat.add_zero] at this
    rw [this, ok1]
  refine ⟨by omega, by omega, h0, by omega, ?_, ?_, ?_, ?_, ?_, ?_⟩
  · have e25 := hbyte 25 (by omega)
    have e32 := hbyte 32 (by omega)
    have ef : fncompare fname fnlen (fun k => sb (i + 33 + k)) (r.getD 32 0) =
        fncompare fname fnlen (ptr (r.drop 33)) (r.getD 32 0) := by
      apply fncompare_congr
      intro k hk
      rw [ptr_drop, Nat.add_assoc]
      exact hbyte (33 + k) (by omega)
    rw [e25, e32, ef]
    simp [rec_match]
  · have e6 : ntohlp (fun k => sb (i + 6 + k)) =
        be32 (r.getD 6 0) (r.getD 7 0) (r.getD 8 0) (r.getD 9 0) := by
      rw [ntohlp_eq_be32]
      · simp only [Nat.add_assoc]
        rw [hbyte (6 + 0) (by omega), hbyte (6 + 1) (by omega), hbyte (6 + 2) (by omega),
          hbyte (6 + 3) (by omega)]
      · intro k hk
        simp only [Nat.add_assoc]
        rw [hbyte (6 + k) (by omega)]
        exact getD_lt_of_ok r ok3 _ (by omega)
    have e14 : ntohlp (fun k => sb (i + 14 + k)) =
        be32 (r.getD 14 0) (r.getD 15 0) (r.getD 16 0) (r.getD 17 0) := by
      rw [ntohlp_eq_be32]
      · simp only [Nat.add_assoc]
        rw [hbyte (14 + 0) (by omega), hbyte (14 + 1) (by omega), hbyte (14 + 2) (by omega),
          hbyte (14 + 3) (by omega)]
      · intro k hk
        simp only [Nat.add_assoc]
        rw [hbyte (14 + k) (by omega)]
        exact getD_lt_of_ok r ok3 _ (by omega)
    rw [e6, e14]
    rfl
  · omega
  · exact fun q hq => h2 q (List.mem_cons_of_mem _ hq)
  · intro k hk
    rw [Nat.add_assoc, h3 (r.length + k) (by omega), getD_append_right]
  · intro hlt
    rw [Nat.add_assoc]
    exact h4 (by omega)


/-- The record loop over a sector none of whose records matches ends without a match. -/
theorem scan_none (sb : Nat → Nat) (dirlen isdir : Nat) (fname : Nat → Nat) (fnlen : Int) :
    ∀ (rs : List (List Nat)) (i fuel : Nat), records_at sb i rs →
      (∀ r ∈ rs, rec_match isdir fname fnlen r = false) → rs.length + 1 ≤ fuel →
      low_find_sector sb dirlen isdir fname fnlen fuel i = some none := by
  intro rs
  induction rs with
  | nil =>
    intro i fuel h _ hf
    obtain ⟨f, rfl⟩ : ∃ f, fuel = f + 1 := ⟨fuel - 1, by omega⟩
    obtain ⟨h1, _, _, h4⟩ := h
    simp only [List.flatten_nil, List.length_nil, Nat.add_zero] at h1 h4
    rw [low_find_sector, if_neg]
    rintro ⟨c1, _, c3⟩
    exact c3 (h4 c1)
  | cons r rs ih =>
    intro i fuel h hm hf
    obtain ⟨f, rfl⟩ : ∃ f, fuel = f + 1 := ⟨fuel - 1, by omega⟩
    obtain ⟨v1, v2, v3, _, v5, _, v7⟩ := record_view sb i r rs h isdir fname fnlen
    rw [low_find_sector]
    by_cases hc : i < 2048 ∧ i < dirlen ∧ sb i ≠ 0
    · rw [if_pos hc, if_neg, v3]
      · exact ih (i + r.length) f v7 (fun q hq => hm q (List.mem_cons_of_mem _ hq))
          (by simp only [List.length_cons] at hf; omega)
      · rw [v5, hm r (List.mem_cons_self _ _)]
        simp
    · rw [if_neg hc]

/-- The record loop over a sector that lies inside the extent reports the first record
that matches. -/
theorem scan_found (sb : Nat → Nat) (dirlen isdir : Nat) (fname : Nat → Nat) (fnlen : Int)
    (r : List Nat) :
    ∀ (rs : List (List Nat)) (i fuel : Nat), records_at sb i rs →
      rs.find? (rec_match isdir fname fnlen) = some r → i + rs.flatten.length ≤ dirlen →
      rs.length + 1 ≤ fuel →
      low_find_sector sb dirlen isdir fname fnlen fuel i = some (some (rec_extent r)) := by
  intro rs
  induction rs with
  | nil =>
    intro i fuel _ hfind
    simp at hfind
  | cons r0 rs ih =>
    intro i fuel h hfind hin hf
    obtain ⟨f, rfl⟩ : ∃ f, fuel = f + 1 := ⟨fuel - 1, by omega⟩
    obtain ⟨v1, v2, v3, v4, v5, v6, v7⟩ := record_view sb i r0 rs h isdir fname fnlen
    rw [List.flatten_cons, List.length_append] at hin
    rw [low_find_sector, if_pos ⟨v1, by omega, v2⟩]
    by_cases hm : rec_match isdir fname fnlen r0 = true
    · rw [if_pos (v5.2 hm), v6]
      rw [List.find?_cons_of_pos _ hm] at hfind
      rw [Option.some.inj hfind]
    · rw [if_neg (fun hc => hm (v5.1 hc)), v3]
      rw [List.find?_cons_of_neg _ hm] at hfind
      exact ih (i + r0.length) f v7 hfind (by omega)
        (by simp only [List.length_cons] at hf; omega)

theorem records_length_le (sb : Nat → Nat) :
    ∀ (rs : List (List Nat)) (i : Nat), records_at sb i rs → rs.length ≤ rs.flatten.length := by
  intro rs
  induction rs with
  | nil => intro i _; simp
  | cons r rs ih =>
    intro i h
    obtain ⟨_, _, _, v4, _, _, v7⟩ := record_view sb i r rs h 0 (fun _ => 0) 0
    have := ih _ v7
    rw [List.flatten_cons, List.length_append, List.length_cons]
    omega

theorem records_at_congr (sb sb1 : Nat → Nat) (i : Nat) (rs : List (List Nat))
    (h : ∀ k, k < 2048 → sb1 k = sb k) (hr : records_at sb i rs) : records_at sb1 i rs := by
  obtain ⟨h1, h2, h3, h4⟩ := hr
  refine ⟨h1, h2, ?_, ?_⟩
  · intro k hk
    rw [h _ (by omega)]
    exact h3 k hk
  · intro hlt
    rw [h _ hlt]
    exact h4 hlt


theorem read_dir_sector (m : Machine) (sec : Nat) (rs : List (List Nat))
    (hok : AllOk m.polls) (h : records_at (m.disc (sec % 2 ^ 32)) 0 rs) :
    records_at (cdrom_read_sectors_ex m Buf.scratch sec 1).2.sector_buffer 0 rs := by
  obtain ⟨_, _, _, _, _, _, h7⟩ := read_scratch_ok m sec hok
  apply records_at_congr _ _ _ _ _ h
  intro k hk
  rw [h7 k hk]
  unfold sector_data
  have e1 : (sec + k / 2048) % 2 ^ 32 = sec % 2 ^ 32 := by omega
  have e2 : k % 2048 = k := by omega
  rw [e1, e2]

theorem sectors_hold_mod (disc : Nat → Nat → Nat) :
    ∀ (secs : List (List (List Nat))) (sec : Nat),
      sectors_hold disc (sec % 2 ^ 32) secs ↔ sectors_hold disc sec secs := by
  intro secs
  induction secs with
  | nil => intro sec; simp [sectors_hold]
  | cons s rest ih =>
    intro sec
    simp only [sectors_hold]
    rw [Nat.mod_mod, ← ih (sec % 2 ^ 32 + 1), ← ih (sec + 1)]
    have e : (sec % 2 ^ 32 + 1) % 2 ^ 32 = (sec + 1) % 2 ^ 32 := by omega
    rw [e]

theorem read_cmds_succ (sec k : Nat) (hsec : sec < 2 ^ 32) :
    read_cmds sec (k + 1) =
      Syscall.req_cmd CMD_PIOREAD (Param.read sec 1 Buf.scratch 0) ::
        read_cmds ((sec + 1) % 2 ^ 32) k := by
  unfold read_cmds
  rw [List.range_succ_eq_map, List.map_cons, List.map_map]
  have e0 : (sec + 0) % 2 ^ 32 = sec := by omega
  rw [e0]
  congr 1
  apply List.map_congr_left
  intro j _
  have e : (sec + Nat.succ j) % 2 ^ 32 = ((sec + 1) % 2 ^ 32 + j) % 2 ^ 32 := by omega
  simp only [Function.comp, e]

theorem low_find_loop_none (isdir : Nat) (fname : Nat → Nat) (fnlen : Int) (psec plen : Nat) :
    ∀ (secs : List (List (List Nat))) (fuel : Nat) (m : Machine) (sec dirlen : Nat),
      AllOk m.polls → sec < 2 ^ 32 → sectors_hold m.disc sec secs →
      (dirlen + 2047) / 2048 ≤ secs.length →
      (∀ r ∈ secs.flatten, rec_match isdir fname fnlen r = false) →
      (dirlen + 2047) / 2048 + 1 ≤ fuel →
      ∃ m1, low_find_loop isdir fname fnlen fuel m sec dirlen psec plen =
          some (-3, psec, plen, m1) ∧
        m1.trace = m.trace ++ read_cmds sec ((dirlen + 2047) / 2048) := by
  intro secs
  induction secs with
  | nil =>
    intro fuel m sec dirlen _ _ _ hlen _ hf
    obtain ⟨f, rfl⟩ : ∃ f, fuel = f + 1 := ⟨fuel - 1, by omega⟩
    simp only [List.length_nil] at hlen
    have hd : dirlen = 0 := by omega
    subst hd
    rw [low_find_loop, if_neg (by omega)]
    exact ⟨m, rfl, by simp [read_cmds]⟩
  | cons s rest ih =>
    intro fuel m sec dirlen hok hsec hhold hlen hno hf
    obtain ⟨f, rfl⟩ : ∃ f, fuel = f + 1 := ⟨fuel - 1, by omega⟩
    by_cases hd : dirlen = 0
    · subst hd
      rw [low_find_loop, if_neg (by omega)]
      exact ⟨m, rfl, by simp [read_cmds]⟩
    obtain ⟨hs, hrest⟩ := hhold
    obtain ⟨_, _, r3, _, r5, r6, _⟩ := read_scratch_ok m sec hok
    have hrec := read_dir_sector m sec s hok hs
    have hlenrec := records_length_le _ s 0 hrec
    have hscan := scan_none (cdrom_read_sectors_ex m Buf.scratch sec 1).2.sector_buffer dirlen
      isdir fname fnlen s 0 2049 hrec
      (fun r hr => hno r (by
        rw [List.flatten_cons]
        exact List.mem_append_left _ hr))
      (by have := hrec.1; omega)
    rw [low_find_loop, if_pos (by omega)]
    simp only
    rw [hscan]
    simp only
    obtain ⟨m1, hm1, ht1⟩ := ih f (cdrom_read_sectors_ex m Buf.scratch sec 1).2
      ((sec + 1) % 2 ^ 32) (dirlen - (if 2048 < dirlen then 2048 else dirlen)) r5
      (Nat.mod_lt _ (by omega))
      (by rw [r3]; exact (sectors_hold_mod m.disc rest (sec + 1)).2 hrest)
      (by simp only [List.length_cons] at hlen; split_ifs <;> omega)
      (fun r hr => hno r (by
        rw [List.flatten_cons]
        exact List.mem_append_right _ hr))
      (by split_ifs <;> omega)
    refine ⟨m1, hm1, ?_⟩
    rw [ht1, r6]
    have e : (dirlen + 2047) / 2048 =
        (dirlen - (if 2048 < dirlen then 2048 else dirlen) + 2047) / 2048 + 1 := by
      split_ifs <;> omega
    rw [e, read_cmds_succ _ _ hsec]
    simp

theorem inside_extent_pos (disc : Nat → Nat → Nat) :
    ∀ (secs : List (List (List Nat))) (sec dirlen : Nat), sectors_hold disc sec secs →
      inside_extent dirlen secs → secs.flatten ≠ [] → 0 < dirlen := by
  intro secs
  induction secs with
  | nil => intro sec dirlen _ _ h; simp at h
  | cons s rest ih =>
    intro sec dirlen hh hi hne
    obtain ⟨hs, hrest⟩ := hh
    obtain ⟨i1, i2⟩ := hi
    by_cases hsn : s = []
    · subst hsn
      have := ih (sec + 1) (dirlen - 2048) hrest i2 (by simpa using hne)
      omega
    · have h1 := records_length_le _ s 0 hs
      have h2 : 0 < s.length := List.length_pos.2 hsn
      omega

theorem low_find_loop_found (isdir : Nat) (fname : Nat → Nat) (fnlen : Int) (psec plen : Nat)
    (r : List Nat) :
    ∀ (secs : List (List (List Nat))) (fuel : Nat) (m : Machine) (sec dirlen : Nat),
      AllOk m.polls → sec < 2 ^ 32 → sectors_hold m.disc sec secs →
      inside_extent dirlen secs →
      secs.flatten.find? (rec_match isdir fname fnlen) = some r →
      dirlen / 2048 + 1 ≤ fuel →
      ∃ m1, low_find_loop isdir fname fnlen fuel m sec dirlen psec plen =
          some (0, (rec_extent r).1, (rec_extent r).2, m1) := by
  intro secs
  induction secs with
  | nil =>
    intro fuel m sec dirlen _ _ _ _ hfind
    simp at hfind
  | cons s rest ih =>
    intro fuel m sec dirlen hok hsec hhold hin hfind hf
    obtain ⟨f, rfl⟩ : ∃ f, fuel = f + 1 := ⟨fuel - 1, by omega⟩
    have hpos : 0 < dirlen := inside_extent_pos m.disc (s :: rest) sec dirlen hhold hin (by
      intro h
      rw [h] at hfind
      simp at hfind)
    obtain ⟨hs, hrest⟩ := hhold
    obtain ⟨i1, i2⟩ := hin
    obtain ⟨_, _, r3, _, r5, _, _⟩ := read_scratch_ok m sec hok
    have hrec := read_dir_sector m sec s hok hs
    have hlenrec := records_length_le _ s 0 hrec
    rw [List.flatten_cons, List.find?_append] at hfind
    rw [low_find_loop, if_pos hpos]
    simp only
    rcases hfs : s.find? (rec_match isdir fname fnlen) with _ | r1
    · rw [hfs] at hfind
      simp only [Option.none_or] at hfind
      have hscan := scan_none (cdrom_read_sectors_ex m Buf.scratch sec 1).2.sector_buffer dirlen
        isdir fname fnlen s 0 2049 hrec
        (fun q hq => by
          have := List.find?_eq_none.1 hfs q hq
          simpa using this)
        (by have := hrec.1; omega)
      rw [hscan]
      simp only
      have hrpos : 0 < dirlen - 2048 :=
        inside_extent_pos m.disc rest (sec + 1) (dirlen - 2048) hrest i2 (by
          intro h
          rw [h] at hfind
          simp at hfind)
      have e : dirlen - (if 2048 < dirlen then 2048 else dirlen) = dirlen - 2048 := by
        rw [if_pos (by omega)]
      rw [e]
      exact ih f (cdrom_read_sectors_ex m Buf.scratch sec 1).2 ((sec + 1) % 2 ^ 32)
        (dirlen - 2048) r5 (Nat.mod_lt _ (by omega))
        (by rw [r3]; exact (sectors_hold_mod m.disc rest (sec + 1)).2 hrest) i2 hfind
        (by omega)
    · rw [hfs] at hfind
      simp at hfind
      have hscan := scan_found (cdrom_read_sectors_ex m Buf.scratch sec 1).2.sector_buffer dirlen
        isdir fname fnlen r1 s 0 2049 hrec hfs (by omega) (by have := hrec.1; omega)
      rw [hscan, ← hfind]
      exact ⟨_, rfl⟩


theorem sample_root_length : sample_root.flatten.length = 150 := by rfl

theorem sample_root_ok : ∀ r ∈ sample_root, rec_ok r = true := by
  intro r hr
  simp only [sample_root, List.mem_cons, List.mem_singleton, List.not_mem_nil, or_false] at hr
  rcases hr with h | h | h | h <;> subst h <;> decide

theorem sample_root_at : records_at (sample_disc (250 % 2 ^ 32)) 0 sample_root := by
  refine ⟨?_, sample_root_ok, ?_, ?_⟩
  · rw [sample_root_length]
    omega
  · intro k _
    simp [sample_disc]
  · intro _
    rw [sample_root_length]
    decide

theorem sample_empty_at : records_at (sample_disc (251 % 2 ^ 32)) 0 [] := by
  refine ⟨by simp, by simp, by simp, ?_⟩
  intro _
  decide

theorem sample_inside : inside_extent 4096 [sample_root, []] := by
  refine ⟨?_, ?_, trivial⟩
  · rw [sample_root_length]
    omega
  · simp

/-- C7: let the sectors `sec`, `sec + 1`, ... of the disc hold a well-formed directory:
records packed from the start of each 2048-byte sector, none straddling a sector boundary,
the unused tail of a sector starting with a zero length byte, every record inside the
declared extent length `dirlen`.  Whatever the distribution `secs` of the record sequence
`recs` over the sectors, if `r` is the first record of `recs` whose directory flag equals
the requested type and whose name matches the query under `fncompare`, and the sector
reads complete, `low_find` returns 0 and outputs the big-endian word at offset 6 of `r`
plus 150 (as a 32-bit value) and the big-endian word at offset 14 of `r`. -/
theorem low_find_found (m : Machine) (sec dirlen : Nat) (isdir : Int) (psec plen : Nat)
    (fname : Nat → Nat) (fnlen : Int) (secs : List (List (List Nat)))
    (recs : List (List Nat)) (r : List Nat)
    (hok : AllOk m.polls) (hsec : sec < 2 ^ 32)
    (hhold : sectors_hold m.disc sec secs) (hin : inside_extent dirlen secs)
    (hseq : secs.flatten = recs)
    (hfind : recs.find? (rec_match (if isdir ≠ 0 then 2 else 0) fname fnlen) = some r) :
    ∃ m1, low_find m sec dirlen isdir psec plen fname fnlen =
      some (0, (rec_extent r).1, (rec_extent r).2, m1) := by
  subst hseq
  exact low_find_loop_found _ fname fnlen psec plen r secs (dirlen / 2048 + 2) m sec dirlen
    hok hsec hhold hin hfind (by omega)

/-- Witness for C7: `MAIN.BIN`, recorded at logical sector 102 with length 50000 in the
root extent (250, 4096) of the sample disc, is found as (252, 50000). -/
theorem low_find_found_witness :
    ∃ m1, low_find (sample_machine []) 250 4096 0 0 0
        (ptr (bytes ['M', 'A', 'I', 'N', '.', 'B', 'I', 'N'])) 8 =
      some (0, 252, 50000, m1) := by
  have h := low_find_found (sample_machine []) 250 4096 0 0 0
    (ptr (bytes ['M', 'A', 'I', 'N', '.', 'B', 'I', 'N'])) 8 [sample_root, []] sample_root
    (mk_record 102 50000 0 (bytes ['M', 'A', 'I', 'N', '.', 'B', 'I', 'N', ';', '1']))
    (by simp [AllOk, sample_machine]) (by decide)
    ⟨sample_root_at, sample_empty_at, trivial⟩ sample_inside (by simp) (by decide)
  exact h

/-- C8: let the sectors `sec`, `sec + 1`, ... hold well-formed directory sectors, one for
each of the `ceil(dirlen / 2048)` sectors of the extent, in which no record has both the
requested type and a matching name.  When the sector reads complete, `low_find`
terminates with -3, the firmware calls it has made are exactly the reads of the sectors
`sec`, `sec + 1`, ..., `sec + ceil(dirlen / 2048) - 1` (as 32-bit sector numbers), one
sector each, in increasing order and each once (none when `dirlen = 0`), and the two
output locations hold what they held on entry. -/
theorem low_find_not_found (m : Machine) (sec dirlen : Nat) (isdir : Int) (psec plen : Nat)
    (fname : Nat → Nat) (fnlen : Int) (secs : List (List (List Nat)))
    (hok : AllOk m.polls) (hsec : sec < 2 ^ 32)
    (hhold : sectors_hold m.disc sec secs) (hlen : (dirlen + 2047) / 2048 ≤ secs.length)
    (hno : ∀ r ∈ secs.flatten,
      rec_match (if isdir ≠ 0 then 2 else 0) fname fnlen r = false) :
    ∃ m1, low_find m sec dirlen isdir psec plen fname fnlen = some (-3, psec, plen, m1) ∧
      m1.trace = m.trace ++ read_cmds sec ((dirlen + 2047) / 2048) :=
  low_find_loop_none _ fname fnlen psec plen secs (dirlen / 2048 + 2) m sec dirlen
    hok hsec hhold hlen hno (by omega)

/-- Witness for C8: the root directory of the sample disc has no file `NOPE`; both of its
sectors are read and the outputs keep the values 7 and 9 they had. -/
theorem low_find_not_found_witness :
    ∃ m1, low_find (sample_machine []) 250 4096 0 7 9 (ptr (bytes ['N', 'O', 'P', 'E'])) 4 =
        some (-3, 7, 9, m1) ∧
      m1.trace = [Syscall.req_cmd 16 (Param.read 250 1 Buf.scratch 0),
        Syscall.req_cmd 16 (Param.read 251 1 Buf.scratch 0)] := by
  have h := low_find_not_found (sample_machine []) 250 4096 0 7 9
    (ptr (bytes ['N', 'O', 'P', 'E'])) 4 [sample_root, []]
    (by simp [AllOk, sample_machine]) (by decide)
    ⟨sample_root_at, sample_empty_at, trivial⟩ (by decide) (by decide)
  exact h

/-! ### The loops of the directory and track search end within their bounds -/

/-- The record loop ends within its iteration bound. -/
theorem low_find_sector_total (sb : Nat → Nat) (dirlen isdir : Nat) (fname : Nat → Nat)
    (fnlen : Int) : ∀ (fuel i : Nat), 1 ≤ fuel → 2049 ≤ fuel + i →
      ∃ x, low_find_sector sb dirlen isdir fname fnlen fuel i = some x := by
  intro fuel
  induction fuel with
  | zero => intro i h; omega
  | succ f ih =>
    intro i _ h
    rw [low_find_sector]
    by_cases hc : i < 2048 ∧ i < dirlen ∧ sb i ≠ 0
    · rw [if_pos hc]
      split_ifs
      · exact ⟨_, rfl⟩
      · exact ih (i + sb i) (by omega) (by omega)
    · rw [if_neg hc]
      exact ⟨_, rfl⟩

/-- The sector loop ends within its iteration bound. -/
theorem low_find_loop_total (isdir : Nat) (fname : Nat → Nat) (fnlen : Int) :
    ∀ (fuel : Nat) (m : Machine) (sec dirlen psec plen : Nat),
      (dirlen + 2047) / 2048 + 1 ≤ fuel →
      ∃ x, low_find_loop isdir fname fnlen fuel m sec dirlen psec plen = some x := by
  intro fuel
  induction fuel with
  | zero => intro m sec dirlen psec plen h; omega
  | succ f ih =>
    intro m sec dirlen psec plen h
    rw [low_find_loop]
    by_cases hd : 0 < dirlen
    · rw [if_pos hd]
      simp only
      obtain ⟨x, hx⟩ := low_find_sector_total
        (cdrom_read_sectors_ex m Buf.scratch sec 1).2.sector_buffer dirlen isdir fname fnlen
        2049 0 (by omega) (by omega)
      rw [hx]
      rcases x with _ | found
      · exact ih _ _ _ _ _ (by split_ifs <;> omega)
      · exact ⟨_, rfl⟩
    · rw [if_neg hd]
      exact ⟨_, rfl⟩

/-- The function `low_find` returns for every directory content and drive behaviour. -/
theorem low_find_total (m : Machine) (sec dirlen : Nat) (isdir : Int) (psec plen : Nat)
    (fname : Nat → Nat) (fnlen : Int) :
    ∃ x, low_find m sec dirlen isdir psec plen fname fnlen = some x :=
  low_find_loop_total _ fname fnlen (dirlen / 2048 + 2) m sec dirlen psec plen (by omega)

theorem TOC_TRACK_le (n : Nat) : TOC_TRACK n ≤ 255 := by
  unfold TOC_TRACK
  have h : n &&& 0x00ff0000 ≤ 0x00ff0000 := Nat.and_le_right
  rw [Nat.shiftRight_eq_div_pow]
  omega

/-- The result of the track loop does not depend on the iteration bound once the bound
covers the tracks left. -/
theorem find_datatrack_loop_bound (toc : CDROM_TOC) (last : Int) :
    ∀ (n1 n2 : Nat) (i : Int), last + 1 ≤ i + n1 → last + 1 ≤ i + n2 →
      find_datatrack_loop toc last n1 i = find_datatrack_loop toc last n2 i := by
  intro n1
  induction n1 with
  | zero =>
    intro n2 i h1 _
    cases n2 with
    | zero => rfl
    | succ n2 =>
      rw [find_datatrack_loop, find_datatrack_loop, if_neg (by omega)]
  | succ n1 ih =>
    intro n2 i h1 h2
    cases n2 with
    | zero =>
      rw [find_datatrack_loop, find_datatrack_loop, if_neg (by omega)]
    | succ n2 =>
      rw [find_datatrack_loop, find_datatrack_loop]
      by_cases hi : i ≤ last
      · rw [if_pos hi, if_pos hi, ih n2 (i + 1) (by omega) (by omega)]
      · rw [if_neg hi, if_neg hi]


theorem find_datatrack_scan_bound (toc : CDROM_TOC) (n : Nat) (h : 256 ≤ n) :
    find_datatrack_loop toc (TOC_TRACK toc.last) n (TOC_TRACK toc.first) =
      find_datatrack_scan toc := by
  have h1 := TOC_TRACK_le toc.last
  exact find_datatrack_loop_bound toc _ n 256 _ (by omega) (by omega)

/-- The function `open` returns 0 for every path and drive behaviour. -/
theorem open_file_total (m : Machine) (path : Nat → Nat) (path_len : Int) :
    ∃ m1, open_file m path path_len = some (0, m1) := by
  unfold open_file
  simp only
  obtain ⟨y, hy⟩ := low_find_total (find_root m).2.2.2 (find_root m).2.1 (find_root m).2.2.1 0
    (find_root m).2.1 (find_root m).2.2.1 path path_len
  rw [hy]
  exact ⟨_, rfl⟩

/-! ### Name comparison when the on-disc name is shorter; lead-in adjustment -/

/-- C17, counterexample: the on-disc name `FOO` (the first three bytes of `FOO;1`) is a
proper initial segment of the query `FOOBAR`, all compared bytes are equal and the byte
right after the on-disc name is `;`, yet `fncompare` returns 0: no match. -/
theorem fncompare_short_disc_name_counterexample :
    bytes ['F', 'O', 'O', 'B', 'A', 'R'] = bytes ['F', 'O', 'O'] ++ bytes ['B', 'A', 'R'] ∧
    ptr (bytes ['F', 'O', 'O', ';', '1']) 3 = 59 ∧
    fncompare (ptr (bytes ['F', 'O', 'O', 'B', 'A', 'R'])) 6
      (ptr (bytes ['F', 'O', 'O', ';', '1'])) 3 = 0 := by
  decide

/-- C17, amended: when the on-disc name `d` is exhausted before the query `q` (`d` is a
proper initial segment of `q`), `fncompare` reports no match, whatever bytes `after`
follow the on-disc name in memory - also when the next disc byte is `;`. -/
theorem fncompare_short_disc_name (q d after : List Nat)
    (h : ∃ c tail, q = d ++ c :: tail) :
    fncompare (ptr q) (q.length : Int) (ptr (d ++ after)) d.length = 0 := by
  have e : fncompare (ptr q) (q.length : Int) (ptr (d ++ after)) d.length =
      fncompare (ptr q) (q.length : Int) (ptr d) d.length := by
    apply fncompare_congr
    intro k hk
    exact getD_append_left d after k hk
  rw [e]
  by_contra hne
  obtain ⟨c, tail, rfl⟩ := h
  rcases (fncompare_ptr d (d ++ c :: tail)).1 hne with h1 | ⟨rest, h1⟩
  · have := congrArg List.length h1
    simp at this
  · have := congrArg List.length h1
    simp at this

/-- Witness for C17: query `FOOBAR`, on-disc name `FOO` followed in memory by `;1`. -/
theorem fncompare_short_disc_name_witness :
    fncompare (ptr (bytes ['F', 'O', 'O', 'B', 'A', 'R']))
      ((bytes ['F', 'O', 'O', 'B', 'A', 'R']).length : Int)
      (ptr (bytes ['F', 'O', 'O'] ++ bytes [';', '1'])) (bytes ['F', 'O', 'O']).length = 0 :=
  fncompare_short_disc_name _ _ _ ⟨66, bytes ['A', 'R'], by decide⟩

/-- C18, counterexample: for the sample volume descriptor, whose root record holds the
length 4096 at offset 14, `find_root` returns the length 4096 and not 4096 + 150. -/
theorem find_root_length_counterexample :
    ntohlp (fun k => (find_root (sample_machine [])).2.2.2.sector_buffer (156 + 14 + k)) = 4096 ∧
    (find_root (sample_machine [])).2.2.1 = 4096 ∧
    (find_root (sample_machine [])).2.2.1 ≠ 4096 + 150 := by
  decide

/-- C18, amended: for every machine, the sector `find_root` returns is the big-endian
word at offset 6 of the record at byte 156 of the sector it read, plus 150 (as a 32-bit
value); the length it returns is the big-endian word at offset 14 of that record,
without adjustment. -/
theorem find_root_lead_in (m : Machine) :
    (find_root m).2.1 =
      (ntohlp (fun k => (find_root m).2.2.2.sector_buffer (156 + 6 + k)) + 150) % 2 ^ 32 ∧
    (find_root m).2.2.1 = ntohlp (fun k => (find_root m).2.2.2.sector_buffer (156 + 14 + k)) ∧
    ((∀ k, k < 4 → (find_root m).2.2.2.sector_buffer (156 + 14 + k) < 256) →
      (find_root m).2.2.1 =
        be32 ((find_root m).2.2.2.sector_buffer 170) ((find_root m).2.2.2.sector_buffer 171)
          ((find_root m).2.2.2.sector_buffer 172) ((find_root m).2.2.2.sector_buffer 173)) := by
  refine ⟨rfl, rfl, ?_⟩
  intro h
  exact ntohlp_eq_be32 (fun k => (find_root m).2.2.2.sector_buffer (156 + 14 + k)) h

/-! ### Status mapping of the command channel -/

theorem wait_cmd_first (n w : Int) (rest : List (Int × Int)) (hn : n ≠ PROCESSING) :
    ∀ pre : List (Int × Int), (∀ p ∈ pre, p.1 = PROCESSING) →
      wait_cmd (pre ++ (n, w) :: rest) = ((n, w), rest) := by
  intro pre
  induction pre with
  | nil =>
    intro _
    simp only [List.nil_append, wait_cmd]
    rw [if_neg hn]
  | cons p pre ih =>
    intro h
    simp only [List.cons_append, wait_cmd]
    rw [if_pos (h p (List.mem_cons_self _ _))]
    exact ih (fun q hq => h q (List.mem_cons_of_mem _ hq))

theorem complete_polls (m : Machine) (cmd : Nat) (p : Param) :
    (complete m cmd p).polls = m.polls := by
  cases p with
  | null => rfl
  | toc s => simp only [complete]; split_ifs <;> rfl
  | read sec num b t => simp only [complete]; split_ifs <;> cases b <;> rfl

theorem cdrom_exec_cmd_polls (m : Machine) (cmd : Nat) (p : Param) :
    (cdrom_exec_cmd m cmd p).2.polls = (wait_cmd m.polls).2 := by
  unfold cdrom_exec_cmd
  simp only
  split_ifs <;> simp [complete_polls]

/-- C11: let the answers of the coming polls be `pre`, all "processing" (1), then `(n, w)`
with `n ≠ 1`, then `rest`.  For every opcode and parameter block `cdrom_exec_cmd` submits
the command once (the trace grows by exactly that one call), polls up to and including the
answer `(n, w)` (the answers left are `rest`), and returns 0 if `n = 2`, 4 if `n = 3`,
5 if `n = 0`, and for any other `n` returns 1 if the status word `w` is 2, 2 if it is 6
and 3 otherwise; the result is one of 0..5. -/
theorem cdrom_exec_cmd_status (m : Machine) (cmd : Nat) (param : Param)
    (pre rest : List (Int × Int)) (n w : Int)
    (hp : m.polls = pre ++ (n, w) :: rest) (hpre : ∀ p ∈ pre, p.1 = PROCESSING)
    (hn : n ≠ PROCESSING) :
    (cdrom_exec_cmd m cmd param).1 =
      (if n = 2 then 0 else if n = 3 then 4 else if n = 0 then 5
       else if w = 2 then 1 else if w = 6 then 2 else 3) ∧
    (cdrom_exec_cmd m cmd param).2.trace = m.trace ++ [Syscall.req_cmd cmd param] ∧
    (cdrom_exec_cmd m cmd param).2.polls = rest ∧
    0 ≤ (cdrom_exec_cmd m cmd param).1 ∧ (cdrom_exec_cmd m cmd param).1 ≤ 5 := by
  have hw := wait_cmd_first n w rest hn pre hpre
  rw [← hp] at hw
  refine ⟨?_, cdrom_exec_cmd_trace m cmd param, ?_, cdrom_exec_cmd_range m cmd param⟩
  · unfold cdrom_exec_cmd
    simp only [hw, COMPLETED, ABORTED, NO_ACTIVE, ERR_OK, ERR_ABORTED, ERR_NO_ACTIVE,
      ERR_NO_DISC, ERR_DISC_CHG, ERR_SYS]
    split_ifs <;> rfl
  · rw [cdrom_exec_cmd_polls, hw]

/-- Witness for C11: two polls answered "processing", then status 4 with status word 2:
the INIT command is submitted once and the result is 1 (no disc). -/
theorem cdrom_exec_cmd_status_witness :
    (cdrom_exec_cmd (sample_machine [(1, 0), (1, 0), (4, 2), (2, 0)]) 24 Param.null).1 = 1 ∧
    (cdrom_exec_cmd (sample_machine [(1, 0), (1, 0), (4, 2), (2, 0)]) 24 Param.null).2.trace =
      [Syscall.req_cmd 24 Param.null] ∧
    (cdrom_exec_cmd (sample_machine [(1, 0), (1, 0), (4, 2), (2, 0)]) 24 Param.null).2.polls =
      [(2, 0)] := by
  have h := cdrom_exec_cmd_status (sample_machine [(1, 0), (1, 0), (4, 2), (2, 0)]) 24
    Param.null [(1, 0), (1, 0)] [(2, 0)] 4 2 rfl (by decide) (by decide)
  exact ⟨h.1, h.2.1, h.2.2.1⟩

/-! ### Retry policy of the re-initialisation -/

theorem init_seq_front (m : Machine) : ∀ k : Nat,
    init_seq m (k + 1) = init_seq (cdrom_exec_cmd m CMD_INIT Param.null).2 k := by
  intro k
  induction k with
  | zero => rfl
  | succ k ih =>
    show cdrom_exec_cmd (init_seq m (k + 1)).2 CMD_INIT Param.null = _
    rw [ih]
    rfl

theorem init_seq_trace (m : Machine) : ∀ k : Nat,
    (init_seq m k).2.trace = m.trace ++ List.replicate (k + 1) init_cmd := by
  intro k
  induction k with
  | zero => simp [init_seq, cdrom_exec_cmd_trace, init_cmd]
  | succ k ih =>
    show (cdrom_exec_cmd (init_seq m k).2 CMD_INIT Param.null).2.trace = _
    rw [cdrom_exec_cmd_trace, ih, List.replicate_succ' (k + 1), List.append_assoc]
    rfl

/-- The retry loop stops at the first outcome that is Ok, NoDisc or SystemError. -/
theorem reinit_loop_stop : ∀ (t j : Nat) (m : Machine) (r : Int), j < t →
    (∀ i, i < j → retried (init_seq m i).1) → ¬ retried (init_seq m j).1 →
    reinit_loop t r m =
      (if (init_seq m j).1 = 0 then some (t - j) else none, (init_seq m j).1,
        (init_seq m j).2) := by
  intro t
  induction t with
  | zero => intro j m r h; omega
  | succ t ih =>
    intro j m r hj hre hst
    cases j with
    | zero =>
      have hst0 : ¬ retried (cdrom_exec_cmd m CMD_INIT Param.null).1 := hst
      rw [reinit_loop]
      show (if (cdrom_exec_cmd m CMD_INIT Param.null).1 = 0 then _ else _) =
        (if (cdrom_exec_cmd m CMD_INIT Param.null).1 = 0 then _ else _, _, _)
      by_cases h0 : (cdrom_exec_cmd m CMD_INIT Param.null).1 = 0
      · rw [if_pos h0, if_pos h0]
        rfl
      · rw [if_neg h0, if_neg h0]
        by_cases h1 : (cdrom_exec_cmd m CMD_INIT Param.null).1 = ERR_NO_DISC
        · rw [if_pos h1]
          rfl
        · rw [if_neg h1]
          by_cases h3 : (cdrom_exec_cmd m CMD_INIT Param.null).1 = ERR_SYS
          · rw [if_pos h3]
            rfl
          · exact absurd ⟨h0, h1, h3⟩ hst0
    | succ j =>
      have hr0 : retried (cdrom_exec_cmd m CMD_INIT Param.null).1 := hre 0 (by omega)
      obtain ⟨h0, h1, h3⟩ := hr0
      rw [reinit_loop]
      rw [if_neg h0, if_neg h1, if_neg h3, init_seq_front]
      have := ih j (cdrom_exec_cmd m CMD_INIT Param.null).2
        (cdrom_exec_cmd m CMD_INIT Param.null).1 (by omega)
        (fun i hi => by
          have := hre (i + 1) (by omega)
          rwa [init_seq_front] at this)
        (by rwa [init_seq_front] at hst)
      rw [this]
      have e : t + 1 - (j + 1) = t - j := by omega
      rw [e]

/-- The retry loop gives up after `t` outcomes none of which is Ok, NoDisc or
SystemError, with the last of them in `r`. -/
theorem reinit_loop_exhaust : ∀ (t : Nat) (m : Machine) (r : Int),
    (∀ i, i < t + 1 → retried (init_seq m i).1) →
    reinit_loop (t + 1) r m = (some 0, (init_seq m t).1, (init_seq m t).2) := by
  intro t
  induction t with
  | zero =>
    intro m r h
    obtain ⟨h0, h1, h3⟩ : retried (cdrom_exec_cmd m CMD_INIT Param.null).1 := h 0 (by omega)
    rw [reinit_loop]
    rw [if_neg h0, if_neg h1, if_neg h3, reinit_loop]
    rfl
  | succ t ih =>
    intro m r h
    obtain ⟨h0, h1, h3⟩ : retried (cdrom_exec_cmd m CMD_INIT Param.null).1 := h 0 (by omega)
    rw [reinit_loop]
    rw [if_neg h0, if_neg h1, if_neg h3, init_seq_front]
    exact ih _ _ (fun i hi => by
      have := h (i + 1) (by omega)
      rwa [init_seq_front] at this)

theorem reinit_loop_count : ∀ (t : Nat) (r : Int) (m : Machine),
    ∃ k, k ≤ t ∧ (reinit_loop t r m).2.2.trace = m.trace ++ List.replicate k init_cmd := by
  intro t
  induction t with
  | zero => intro r m; exact ⟨0, le_refl _, by simp [reinit_loop]⟩
  | succ t ih =>
    intro r m
    have ht := cdrom_exec_cmd_trace m CMD_INIT Param.null
    rw [reinit_loop]
    split_ifs
    · exact ⟨1, by omega, ht⟩
    · exact ⟨1, by omega, ht⟩
    · exact ⟨1, by omega, ht⟩
    · obtain ⟨k, hk1, hk2⟩ := ih (cdrom_exec_cmd m CMD_INIT Param.null).1
        (cdrom_exec_cmd m CMD_INIT Param.null).2
      refine ⟨k + 1, by omega, ?_⟩
      rw [hk2, ht, List.replicate_succ, List.append_assoc]
      rfl


theorem cdrom_reinit_of_stop (m : Machine) (j : Nat) (hj : j < 10000)
    (hre : ∀ i, i < j → retried (init_seq m i).1) (hst : ¬ retried (init_seq m j).1) :
    cdrom_reinit m =
      if (init_seq m j).1 = 0 then
        (if (init_seq m j).2.chg_ret < 0 then ERR_SYS else ERR_OK,
          { (init_seq m j).2 with
            trace := (init_seq m j).2.trace ++ set_mode_calls (init_seq m j).2 })
      else ((init_seq m j).1, (init_seq m j).2) := by
  have h := reinit_loop_stop (10 * 1000) j m (-1) (by omega) hre hst
  unfold cdrom_reinit
  rw [h]
  by_cases h0 : (init_seq m j).1 = 0
  · rw [if_pos h0, if_pos h0]
    simp only
    rw [if_neg (by omega)]
    by_cases hc : (init_seq m j).2.chg_ret < 0
    · rw [if_pos hc, if_pos hc]
      simp [set_mode_calls]
    · rw [if_neg hc, if_neg hc]
      simp [set_mode_calls]
  · rw [if_neg h0, if_neg h0]

theorem cdrom_reinit_of_exhaust (m : Machine)
    (hre : ∀ i, i < 10000 → retried (init_seq m i).1) :
    cdrom_reinit m = init_seq m 9999 := by
  have h := reinit_loop_exhaust 9999 m (-1) hre
  unfold cdrom_reinit
  rw [show 10 * 1000 = 9999 + 1 from rfl, h]
  simp

theorem cdrom_reinit_count (m : Machine) :
    ∃ k tail, k ≤ 10000 ∧
      (cdrom_reinit m).2.trace = m.trace ++ List.replicate k init_cmd ++ tail ∧
      init_cmd ∉ tail := by
  obtain ⟨k, hk1, hk2⟩ := reinit_loop_count (10 * 1000) (-1) m
  unfold cdrom_reinit
  rcases h : reinit_loop (10 * 1000) (-1) m with ⟨_ | t, r, m1⟩
  · rw [h] at hk2
    exact ⟨k, [], by omega, by simpa using hk2, by simp⟩
  · rw [h] at hk2
    simp only at hk2 ⊢
    by_cases ht : t ≤ 0
    · rw [if_pos ht]
      exact ⟨k, [], by omega, by simpa using hk2, by simp⟩
    · rw [if_neg ht]
      refine ⟨k, set_mode_calls m1, by omega, ?_, by simp [set_mode_calls, init_cmd]⟩
      by_cases hc : m1.chg_ret < 0 <;> simp [hc, hk2, set_mode_calls]


/-- C12: let the INIT commands issued one after another from machine `m` have the
outcomes `(init_seq m 0).1`, `(init_seq m 1).1`, ...  If outcome `j`, with `j < 10000`, is
the first that is Ok, NoDisc or SystemError, `cdrom_reinit` issues exactly `j + 1` INIT
commands; on NoDisc or SystemError it returns that error and makes no further firmware
call, on Ok (also at the 10,000th attempt, `j = 9999`) it goes on to the set-data-mode
step.  If none of the first 10,000 outcomes is Ok, NoDisc or SystemError, it issues
exactly 10,000 INIT commands and nothing else and returns the outcome of the last one.
In every case the number of INIT commands is at most 10,000. -/
theorem cdrom_reinit_retry (m : Machine) :
    (∀ j, j < 10000 → (∀ i, i < j → retried (init_seq m i).1) →
      (((init_seq m j).1 = ERR_NO_DISC ∨ (init_seq m j).1 = ERR_SYS) →
        (cdrom_reinit m).1 = (init_seq m j).1 ∧
        (cdrom_reinit m).2.trace = m.trace ++ List.replicate (j + 1) init_cmd) ∧
      ((init_seq m j).1 = 0 →
        (cdrom_reinit m).1 = (if (init_seq m j).2.chg_ret < 0 then ERR_SYS else ERR_OK) ∧
        (cdrom_reinit m).2.trace =
          m.trace ++ List.replicate (j + 1) init_cmd ++ set_mode_calls (init_seq m j).2)) ∧
    ((∀ i, i < 10000 → retried (init_seq m i).1) →
      (cdrom_reinit m).1 = (init_seq m 9999).1 ∧
      (cdrom_reinit m).2.trace = m.trace ++ List.replicate 10000 init_cmd) ∧
    (∃ k tail, k ≤ 10000 ∧
      (cdrom_reinit m).2.trace = m.trace ++ List.replicate k init_cmd ++ tail ∧
      init_cmd ∉ tail) := by
  refine ⟨?_, ?_, cdrom_reinit_count m⟩
  · intro j hj hre
    constructor
    · intro hst
      have hne : (init_seq m j).1 ≠ 0 := by
        rcases hst with h | h <;> rw [h] <;> decide
      have hnr : ¬ retried (init_seq m j).1 := by
        rintro ⟨_, h1, h3⟩
        rcases hst with h | h
        · exact h1 h
        · exact h3 h
      rw [cdrom_reinit_of_stop m j hj hre hnr, if_neg hne]
      exact ⟨rfl, init_seq_trace m j⟩
    · intro h0
      have hnr : ¬ retried (init_seq m j).1 := fun h => h.1 h0
      rw [cdrom_reinit_of_stop m j hj hre hnr, if_pos h0]
      refine ⟨rfl, ?_⟩
      show (init_seq m j).2.trace ++ set_mode_calls (init_seq m j).2 = _
      rw [init_seq_trace]
  · intro hre
    rw [cdrom_reinit_of_exhaust m hre]
    have ht := init_seq_trace m 9999
    rw [show 9999 + 1 = 10000 from rfl] at ht
    exact ⟨rfl, ht⟩

/-- Witness for C12: the first INIT is aborted, the second ends with the status word
"disc changed", the third completes: three INIT commands, then the set-data-mode step. -/
theorem cdrom_reinit_retry_witness :
    (cdrom_reinit (sample_machine [(3, 0), (7, 6), (2, 0)])).1 = 0 ∧
    (cdrom_reinit (sample_machine [(3, 0), (7, 6), (2, 0)])).2.trace =
      [init_cmd, init_cmd, init_cmd, Syscall.get_drv_stat,
        Syscall.change_data_type 0 8192 2048 2048] := by
  have h := ((cdrom_reinit_retry (sample_machine [(3, 0), (7, 6), (2, 0)])).1 2 (by decide)
    (by
      intro i hi
      have hi2 : i = 0 ∨ i = 1 := by omega
      rcases hi2 with h | h <;> subst h <;> unfold retried <;> decide)).2 (by decide)
  exact h

/-! ### The destination-alignment guard of the sector read -/

theorem read_sectors_trace (m : Machine) (b : Buf) (s n : Nat) :
    (cdrom_read_sectors_ex m b s n).2.trace =
      if b.odd then m.trace else m.trace ++ [Syscall.req_cmd CMD_PIOREAD (Param.read s n b 0)] := by
  unfold cdrom_read_sectors_ex
  split_ifs
  · rfl
  · exact cdrom_exec_cmd_trace _ _ _

/-- The tail of `pread`, when nothing is left or the rest lies inside one sector, returns
and only adds firmware calls to the trace. -/
theorem pread_tail_leaf_trace (self : Machine → Nat → Nat → Nat → Option (Int × Machine))
    (m : Machine) (buf n off t : Nat) (h : n = 0 ∨ off % 2048 + n ≤ 2048) :
    ∃ x l, pread_tail self m buf n off t = some x ∧ x.2.trace = m.trace ++ l := by
  unfold pread_tail
  by_cases hn : n = 0
  · rw [if_pos hn]
    exact ⟨_, [], rfl, by simp⟩
  · rw [if_neg hn]
    have hb : off % 2048 + n ≤ 2048 := by
      rcases h with h | h
      · exact absurd h hn
      · exact h
    have h2 : ¬ 2048 < (off % 2048 + n) % 2 ^ 32 := by
      have := Nat.mod_le (off % 2048 + n) (2 ^ 32)
      omega
    rw [if_neg h2]
    simp only [memcpy, if_pos hb]
    have ht := read_sectors_trace m Buf.scratch ((m.fh.sec0 + off / 2048) % 2 ^ 32) 1
    simp only [Buf.odd, Bool.false_eq_true, if_false] at ht
    split_ifs
    · exact ⟨_, _, rfl, ht⟩
    · exact ⟨_, _, rfl, ht⟩

/-- C19: `cdrom_read_sectors_ex` returns SystemError (3) without a firmware call exactly
when the destination address is odd, and then leaves the machine as it was; for an even
address it is `cdrom_exec_cmd` on the direct-IO read command (opcode 16) carrying
(sector, count, destination, test flag 0), submitted once.  The scratch buffer is never
odd.  A call of `pread` - the top-level one or a recursive one with an advanced pointer -
that takes the whole-sector path returns 3 with the machine untouched when its
destination is odd, and when it is even the first firmware call it makes is that
whole-sector read. -/
theorem read_sectors_guard (m : Machine) (buffer : Buf) (sector cnt : Nat) :
    (((cdrom_read_sectors_ex m buffer sector cnt).1 = ERR_SYS ∧
        (cdrom_read_sectors_ex m buffer sector cnt).2.trace = m.trace) ↔ buffer.odd = true) ∧
    (buffer.odd = true → cdrom_read_sectors_ex m buffer sector cnt = (ERR_SYS, m)) ∧
    (buffer.odd = false →
      cdrom_read_sectors_ex m buffer sector cnt =
        cdrom_exec_cmd m CMD_PIOREAD (Param.read sector cnt buffer 0) ∧
      (cdrom_read_sectors_ex m buffer sector cnt).2.trace =
        m.trace ++ [Syscall.req_cmd 16 (Param.read sector cnt buffer 0)]) ∧
    Buf.scratch.odd = false ∧
    (∀ a, (Buf.user a).odd = true ↔ a % 2 = 1) ∧
    (∀ (F buf nbyte offset : Nat), offset < m.fh.len →
      2048 ≤ (if m.fh.len < (offset + nbyte) % 2 ^ 32 then m.fh.len - offset else nbyte) →
      offset % 2048 = 0 →
      (buf % 2 = 1 → pread_fuel (F + 1) m buf nbyte offset = some (ERR_SYS, m)) ∧
      (buf % 2 = 0 → ∃ x l, pread_fuel (F + 1) m buf nbyte offset = some x ∧
        x.2.trace = m.trace ++
          Syscall.req_cmd 16 (Param.read ((m.fh.sec0 + offset / 2048) % 2 ^ 32)
            ((if m.fh.len < (offset + nbyte) % 2 ^ 32 then m.fh.len - offset else nbyte) / 2048)
            (Buf.user buf) 0) :: l)) := by
  refine ⟨?_, ?_, ?_, rfl, ?_, ?_⟩
  · constructor
    · rintro ⟨_, h2⟩
      rw [read_sectors_trace] at h2
      by_contra hodd
      rw [if_neg hodd] at h2
      have := congrArg List.length h2
      simp at this
    · intro hodd
      simp [cdrom_read_sectors_ex, hodd]
  · intro hodd
    simp [cdrom_read_sectors_ex, hodd]
  · intro hodd
    refine ⟨by simp [cdrom_read_sectors_ex, hodd], ?_⟩
    rw [read_sectors_trace]
    simp [hodd, CMD_PIOREAD]
  · intro a
    simp [Buf.odd]
  · intro F buf nbyte offset hoff hn hal
    constructor
    · intro hb
      rw [pread_fuel, if_neg (by omega)]
      simp only
      rw [if_pos ⟨hn, hal⟩]
      have e : cdrom_read_sectors_ex m (Buf.user buf) ((m.fh.sec0 + offset / 2048) % 2 ^ 32)
          ((if m.fh.len < (offset + nbyte) % 2 ^ 32 then m.fh.len - offset else nbyte) / 2048) =
          (ERR_SYS, m) := by
        simp [cdrom_read_sectors_ex, Buf.odd, hb]
      rw [e, if_pos (by simp [ERR_SYS])]
    · intro hb
      rw [pread_fuel, if_neg (by omega)]
      simp only
      rw [if_pos ⟨hn, hal⟩]
      generalize hk : (if m.fh.len < (offset + nbyte) % 2 ^ 32 then m.fh.len - offset
        else nbyte) = n at hn ⊢
      have ht := read_sectors_trace m (Buf.user buf) ((m.fh.sec0 + offset / 2048) % 2 ^ 32)
        (n / 2048)
      have hodd : (Buf.user buf).odd = false := by simp [Buf.odd, hb]
      rw [hodd] at ht
      simp only [Bool.false_eq_true, if_false] at ht
      split_ifs with hx
      · exact ⟨_, [], rfl, by rw [ht]; rfl⟩
      · obtain ⟨y, l, hy1, hy2⟩ := pread_tail_leaf_trace (pread_fuel F)
          (cdrom_read_sectors_ex m (Buf.user buf) ((m.fh.sec0 + offset / 2048) % 2 ^ 32)
            (n / 2048)).2 ((buf + (n - n % 2048)) % 2 ^ 32) (n % 2048)
          ((offset + (n - n % 2048)) % 2 ^ 32) (n - n % 2048) (Or.inr (by omega))
        refine ⟨y, l, hy1, ?_⟩
        rw [hy2, ht]
        simp [CMD_PIOREAD]

/-- Witness for C19: on the opened sample file a read of one sector at offset 0 is
refused for the odd destination `0x8c010001` and issues the whole-sector read for the
even destination `0x8c010000`. -/
theorem read_sectors_guard_witness :
    pread_fuel 1 (sample_open []) 0x8c010001 2048 0 = some (ERR_SYS, sample_open []) ∧
    ∃ x l, pread_fuel 1 (sample_open []) 0x8c010000 2048 0 = some x ∧
      x.2.trace = (sample_open []).trace ++
        Syscall.req_cmd 16 (Param.read 252 1 (Buf.user 0x8c010000) 0) :: l := by
  have h := (read_sectors_guard (sample_open []) Buf.scratch 0 0).2.2.2.2.2 0
  exact ⟨(h 0x8c010001 2048 0 (by decide) (by decide) (by decide)).1 (by decide),
    (h 0x8c010000 2048 0 (by decide) (by decide) (by decide)).2 (by decide)⟩

/-! ### Postcondition of `open` -/

/-- A match reported by the record loop comes from a record of the sector held in `sb`
that is of the requested kind and whose name matches. -/
theorem low_find_sector_some (sb : Nat → Nat) (dirlen isdir : Nat) (fname : Nat → Nat)
    (fnlen : Int) : ∀ (fuel i : Nat) (found : Nat × Nat),
      low_find_sector sb dirlen isdir fname fnlen fuel i = some (some found) →
      ∃ j, j < 2048 ∧ j < dirlen ∧ sb j ≠ 0 ∧ sb (j + 25) &&& 2 = isdir ∧
        fncompare fname fnlen (fun k => sb (j + 33 + k)) (sb (j + 32)) ≠ 0 ∧
        found = ((ntohlp (fun k => sb (j + 6 + k)) + 150) % 2 ^ 32,
          ntohlp (fun k => sb (j + 14 + k))) := by
  intro fuel
  induction fuel with
  | zero =>
    intro i found h
    simp [low_find_sector] at h
  | succ f ih =>
    intro i found h
    rw [low_find_sector] at h
    by_cases hc : i < 2048 ∧ i < dirlen ∧ sb i ≠ 0
    · rw [if_pos hc] at h
      by_cases hm : sb (i + 25) &&& 2 = isdir ∧
          fncompare fname fnlen (fun k => sb (i + 33 + k)) (sb (i + 32)) ≠ 0
      · rw [if_pos hm] at h
        have e := Option.some.inj (Option.some.inj h)
        exact ⟨i, hc.1, hc.2.1, hc.2.2, hm.1, hm.2, e.symm⟩
      · rw [if_neg hm] at h
        exact ih _ _ h
    · rw [if_neg hc] at h
      simp at h

/-- What the sector loop of `low_find` can return: -3 with the two outputs untouched, or
0 with the extent of a matching record of the sector left in the scratch buffer. -/
theorem low_find_loop_result (isdir : Nat) (fname : Nat → Nat) (fnlen : Int) :
    ∀ (fuel : Nat) (m : Machine) (sec dirlen psec plen : Nat) (y : Int × Nat × Nat × Machine),
      low_find_loop isdir fname fnlen fuel m sec dirlen psec plen = some y →
      (y.1 = -3 ∧ y.2.1 = psec ∧ y.2.2.1 = plen) ∨
      (y.1 = 0 ∧ ∃ j, j < 2048 ∧ y.2.2.2.sector_buffer (j + 25) &&& 2 = isdir ∧
        fncompare fname fnlen (fun k => y.2.2.2.sector_buffer (j + 33 + k))
          (y.2.2.2.sector_buffer (j + 32)) ≠ 0 ∧
        y.2.1 = (ntohlp (fun k => y.2.2.2.sector_buffer (j + 6 + k)) + 150) % 2 ^ 32 ∧
        y.2.2.1 = ntohlp (fun k => y.2.2.2.sector_buffer (j + 14 + k))) := by
  intro fuel
  induction fuel with
  | zero =>
    intro m sec dirlen psec plen y h
    simp [low_find_loop] at h
  | succ f ih =>
    intro m sec dirlen psec plen y h
    rw [low_find_loop] at h
    by_cases hd : 0 < dirlen
    · rw [if_pos hd] at h
      simp only at h
      rcases hs : low_find_sector (cdrom_read_sectors_ex m Buf.scratch sec 1).2.sector_buffer
          dirlen isdir fname fnlen 2049 0 with _ | res
      · rw [hs] at h
        simp at h
      · rw [hs] at h
        rcases res with _ | found
        · exact ih _ _ _ _ _ y h
        · simp only at h
          obtain ⟨j, j1, _, _, j4, j5, j6⟩ := low_find_sector_some _ _ _ _ _ _ _ _ hs
          have e := Option.some.inj h
          subst e
          right
          exact ⟨rfl, j, j1, j4, j5, by rw [j6], by rw [j6]⟩
    · rw [if_neg hd] at h
      have e := Option.some.inj h
      subst e
      left
      exact ⟨rfl, rfl, rfl⟩

/-- C13: for every path, path length and drive behaviour, `open` is one `find_root`
followed by one `low_find` on the extent `find_root` returned, with the whole path as
the name and the type "file" (0) and with the two outputs initially holding that extent;
it returns 0 and installs the handle with cursor 0 and the two outputs of `low_find` as
start sector and length.  When `low_find` reports NotFound (-3) these are exactly the
extent of the root directory as returned by `find_root`; when it succeeds they are the
extent (start plus 150, length) of a record of the scratch buffer that is a file and
whose name matches the path. -/
theorem open_file_spec (m : Machine) (path : Nat → Nat) (path_len : Int) :
    ∃ y, low_find (find_root m).2.2.2 (find_root m).2.1 (find_root m).2.2.1 0
        (find_root m).2.1 (find_root m).2.2.1 path path_len = some y ∧
      open_file m path path_len =
        some (0, { y.2.2.2 with fh := { sec0 := y.2.1, loc := 0, len := y.2.2.1 } }) ∧
      ((y.1 = -3 ∧ y.2.1 = (find_root m).2.1 ∧ y.2.2.1 = (find_root m).2.2.1) ∨
       (y.1 = 0 ∧ ∃ j, j < 2048 ∧ y.2.2.2.sector_buffer (j + 25) &&& 2 = 0 ∧
          fncompare path path_len (fun k => y.2.2.2.sector_buffer (j + 33 + k))
            (y.2.2.2.sector_buffer (j + 32)) ≠ 0 ∧
          y.2.1 = (ntohlp (fun k => y.2.2.2.sector_buffer (j + 6 + k)) + 150) % 2 ^ 32 ∧
          y.2.2.1 = ntohlp (fun k => y.2.2.2.sector_buffer (j + 14 + k)))) := by
  obtain ⟨y, hy⟩ := low_find_total (find_root m).2.2.2 (find_root m).2.1 (find_root m).2.2.1 0
    (find_root m).2.1 (find_root m).2.2.1 path path_len
  refine ⟨y, hy, ?_, ?_⟩
  · unfold open_file
    simp only
    rw [hy]
  · have h := low_find_loop_result _ path path_len _ _ _ _ _ _ y hy
    simpa using h


/-- The two outcomes of `open` on the sample disc: `MAIN.BIN` is found and the handle is
(252, 0, 50000); `NOPE` is not found and the handle is the root extent (250, 0, 4096). -/
theorem open_file_sample :
    (open_file (sample_machine []) (ptr (bytes ['M', 'A', 'I', 'N', '.', 'B', 'I', 'N'])) 8).map
      (fun x => (x.1, x.2.fh)) = some (0, { sec0 := 252, loc := 0, len := 50000 }) ∧
    (open_file (sample_machine []) (ptr (bytes ['N', 'O', 'P', 'E'])) 4).map
      (fun x => (x.1, x.2.fh)) = some (0, { sec0 := 250, loc := 0, len := 4096 }) := by
  refine ⟨by decide, by decide⟩

/-! ### Command trace of an unaligned read -/

/-- C16, counterexample: for the file (252, 50000) the call `pread(buf, 3000, 1000)`
returns 3000 after exactly two firmware calls, the single-sector reads of sectors 252 and
253 into the scratch buffer; no transfer of zero sectors into `buf` comes before them. -/
theorem pread_unaligned_no_bulk_counterexample :
    (pread (sample_open []) 0x8c010000 3000 1000).map
      (fun x => (x.1, x.2.trace.length, reads_of x.2.trace)) =
      some (3000, 2, [(252, 1, Buf.scratch), (253, 1, Buf.scratch)]) ∧
    ¬ ∃ m1 sec, pread (sample_open []) 0x8c010000 3000 1000 = some (3000, m1) ∧
      reads_of m1.trace =
        [(sec, 0, Buf.user 0x8c010000), (252, 1, Buf.scratch), (253, 1, Buf.scratch)] := by
  have h : (pread (sample_open []) 0x8c010000 3000 1000).map
      (fun x => (x.1, x.2.trace.length, reads_of x.2.trace)) =
      some (3000, 2, [(252, 1, Buf.scratch), (253, 1, Buf.scratch)]) := by decide
  refine ⟨h, ?_⟩
  rintro ⟨m1, sec, h1, h2⟩
  rw [h1] at h
  simp only [Option.map_some', Option.some.injEq, Prod.mk.injEq] at h
  rw [h2] at h
  simp at h

/-- C16, amended: for the file (252, 50000) and the request `pread(buf, 3000, 1000)` the
firmware calls are exactly two single-sector reads into the scratch buffer and no
whole-sector transfer: sector 252, whose bytes 1000..2047 (1048 bytes) end up at `buf`,
then sector 253, whose bytes 0..1951 (1952 bytes) end up at `buf + 1048`; the result is
3000. -/
theorem pread_unaligned_trace :
    ∃ m1, pread (sample_open []) 0x8c010000 3000 1000 = some (3000, m1) ∧
      m1.trace = [Syscall.req_cmd 16 (Param.read 252 1 Buf.scratch 0),
        Syscall.req_cmd 16 (Param.read 253 1 Buf.scratch 0)] ∧
      dest_bytes m1 0x8c010000 1048 = (List.range 1048).map (fun k => sample_disc 252 (1000 + k)) ∧
      dest_bytes m1 (0x8c010000 + 1048) 1952 = (List.range 1952).map (fun k => sample_disc 253 k) := by
  obtain ⟨m1, h1, hf⟩ := pread_fuel_correct 3000 (sample_open []) 0x8c010000 3000 1000
    (by simp [AllOk, sample_open, sample_machine]) (by decide) (by decide) (by decide)
    (by decide) (by decide) (by decide)
  have ht : (pread (sample_open []) 0x8c010000 3000 1000).map (fun x => x.2.trace) =
      some [Syscall.req_cmd 16 (Param.read 252 1 Buf.scratch 0),
        Syscall.req_cmd 16 (Param.read 253 1 Buf.scratch 0)] := by decide
  have h1' : pread (sample_open []) 0x8c010000 3000 1000 = some (3000, m1) := h1
  rw [h1'] at ht
  refine ⟨m1, h1', Option.some.inj ht, ?_, ?_⟩
  · unfold dest_bytes
    apply List.map_congr_left
    intro k hk
    have hk1 : k < 1048 := List.mem_range.1 hk
    rw [hf.2.2.2]
    have e : ((0x8c010000 + k) % 2 ^ 32 + 2 ^ 32 - 0x8c010000) % 2 ^ 32 = k := by omega
    have hm : min 3000 ((sample_open []).fh.len - 1000) = 3000 := by decide
    rw [e, hm, if_pos (by omega)]
    unfold sector_data
    have e1 : ((sample_open []).fh.sec0 + (1000 + k) / 2048) % 2 ^ 32 = 252 := by
      have : (sample_open []).fh.sec0 = 252 := rfl
      omega
    have e2 : (1000 + k) % 2048 = 1000 + k := by omega
    rw [e1, e2]
    rfl
  · unfold dest_bytes
    apply List.map_congr_left
    intro k hk
    have hk1 : k < 1952 := List.mem_range.1 hk
    rw [hf.2.2.2]
    have e : ((0x8c010000 + 1048 + k) % 2 ^ 32 + 2 ^ 32 - 0x8c010000) % 2 ^ 32 = 1048 + k := by
      omega
    have hm : min 3000 ((sample_open []).fh.len - 1000) = 3000 := by decide
    rw [e, hm, if_pos (by omega)]
    unfold sector_data
    have e1 : ((sample_open []).fh.sec0 + (1000 + (1048 + k)) / 2048) % 2 ^ 32 = 253 := by
      have : (sample_open []).fh.sec0 = 252 := rfl
      omega
    have e2 : (1000 + (1048 + k)) % 2048 = k := by omega
    rw [e1, e2]
    rfl

/-! ### Scratch-buffer accesses of the directory scan -/

theorem fncompare_log_fst : ∀ (n : Nat) (fn1 : Nat → Nat) (l : Int) (fn2 : Nat → Nat),
    (fncompare_log fn1 l fn2 n).1 = fncompare fn1 l fn2 n := by
  intro n
  induction n with
  | zero => intro fn1 l fn2; rfl
  | succ n ih =>
    intro fn1 l fn2
    rw [fncompare_log, fncompare]
    split_ifs
    · rfl
    · rfl
    · rfl
    · exact ih _ _ _

theorem fncompare_log_lt : ∀ (n : Nat) (fn1 : Nat → Nat) (l : Int) (fn2 : Nat → Nat),
    ∀ k ∈ (fncompare_log fn1 l fn2 n).2, k < n := by
  intro n
  induction n with
  | zero =>
    intro fn1 l fn2 k hk
    simp [fncompare_log] at hk
  | succ n ih =>
    intro fn1 l fn2 k hk
    rw [fncompare_log] at hk
    split_ifs at hk
    · simp at hk
      omega
    · simp at hk
      omega
    · simp at hk
      omega
    · simp only [List.mem_cons, List.mem_map] at hk
      rcases hk with hk | ⟨a, ha, rfl⟩
      · omega
      · have := ih _ _ _ a ha
        omega

/-- The logging record loop computes what the record loop computes. -/
theorem low_find_sector_log_fst (sb : Nat → Nat) (dirlen isdir : Nat) (fname : Nat → Nat)
    (fnlen : Int) : ∀ (fuel i : Nat),
      (low_find_sector_log sb dirlen isdir fname fnlen fuel i).1 =
        low_find_sector sb dirlen isdir fname fnlen fuel i := by
  intro fuel
  induction fuel with
  | zero => intro i; rfl
  | succ f ih =>
    intro i
    rw [low_find_sector_log, low_find_sector]
    by_cases h1 : i < 2048 ∧ i < dirlen
    · rw [if_pos h1]
      by_cases h2 : sb i ≠ 0
      · have h12 : i < 2048 ∧ i < dirlen ∧ sb i ≠ 0 := ⟨h1.1, h1.2, h2⟩
        rw [if_pos h2, if_pos h12]
        by_cases h3 : sb (i + 25) &&& 2 = isdir
        · rw [if_pos h3]
          by_cases h4 : (fncompare_log fname fnlen (fun k => sb (i + 33 + k))
              (sb (i + 32))).1 ≠ 0
          · have h34 : sb (i + 25) &&& 2 = isdir ∧
                fncompare fname fnlen (fun k => sb (i + 33 + k)) (sb (i + 32)) ≠ 0 :=
              ⟨h3, by rwa [fncompare_log_fst] at h4⟩
            rw [if_pos h4, if_pos h34]
          · have h34 : ¬ (sb (i + 25) &&& 2 = isdir ∧
                fncompare fname fnlen (fun k => sb (i + 33 + k)) (sb (i + 32)) ≠ 0) :=
              fun hc => h4 (by rw [fncompare_log_fst]; exact hc.2)
            rw [if_neg h4, if_neg h34]
            exact ih _
        · have h34 : ¬ (sb (i + 25) &&& 2 = isdir ∧
              fncompare fname fnlen (fun k => sb (i + 33 + k)) (sb (i + 32)) ≠ 0) :=
            fun hc => h3 hc.1
          rw [if_neg h3, if_neg h34]
          exact ih _
      · have h12 : ¬ (i < 2048 ∧ i < dirlen ∧ sb i ≠ 0) := fun hc => h2 hc.2.2
        rw [if_neg h2, if_neg h12]
    · have h12 : ¬ (i < 2048 ∧ i < dirlen ∧ sb i ≠ 0) := fun hc => h1 ⟨hc.1, hc.2.1⟩
      rw [if_neg h1, if_neg h12]

theorem low_find_sector_log_lt (sb : Nat → Nat) (dirlen isdir : Nat) (fname : Nat → Nat)
    (fnlen : Int) : ∀ (fuel i : Nat), chain_ok sb fuel i = true →
      ∀ k ∈ (low_find_sector_log sb dirlen isdir fname fnlen fuel i).2, k < 2048 := by
  intro fuel
  induction fuel with
  | zero =>
    intro i _ k hk
    simp [low_find_sector_log] at hk
  | succ f ih =>
    intro i hok k hk
    rw [low_find_sector_log] at hk
    rw [chain_ok] at hok
    by_cases h1 : i < 2048 ∧ i < dirlen
    · rw [if_pos h1] at hk
      by_cases h2 : sb i ≠ 0
      · rw [if_pos h2] at hk
        have h12 : i < 2048 ∧ sb i ≠ 0 := ⟨h1.1, h2⟩
        rw [if_pos h12, Bool.and_eq_true, decide_eq_true_eq] at hok
        obtain ⟨⟨c1, c2⟩, c3⟩ := hok
        have hname : ∀ a ∈ (fncompare_log fname fnlen (fun k => sb (i + 33 + k))
            (sb (i + 32))).2, i + 33 + a < 2048 := by
          intro a ha
          have := fncompare_log_lt _ _ _ _ a ha
          omega
        by_cases h3 : sb (i + 25) &&& 2 = isdir
        · rw [if_pos h3] at hk
          by_cases h4 : (fncompare_log fname fnlen (fun k => sb (i + 33 + k))
              (sb (i + 32))).1 ≠ 0
          · rw [if_pos h4] at hk
            simp only [List.mem_append, List.mem_cons, List.mem_map, List.mem_singleton,
              List.not_mem_nil, or_false] at hk
            rcases hk with (hk | ⟨a, ha, rfl⟩) | hk
            · omega
            · exact hname a ha
            · omega
          · rw [if_neg h4] at hk
            simp only [List.mem_append, List.mem_cons, List.mem_map,
              List.not_mem_nil, or_false] at hk
            rcases hk with (hk | ⟨a, ha, rfl⟩) | hk
            · omega
            · exact hname a ha
            · exact ih _ c3 k hk
        · rw [if_neg h3] at hk
          simp only [List.mem_append, List.mem_cons, List.not_mem_nil, or_false] at hk
          rcases hk with hk | hk
          · omega
          · exact ih _ c3 k hk
      · rw [if_neg h2] at hk
        simp only [List.mem_singleton] at hk
        omega
    · rw [if_neg h1] at hk
      simp at hk

/-- C20: if the record chain of the sector held in the scratch buffer is well formed
(every record that starts at an offset `i < 2048` with a non-zero length byte `r` has
`i + r ≤ 2048` and `r ≥ 33 +` its name-length byte), then for every extent length, kind
and query every index of the scratch buffer that the record loop of `low_find` and
`fncompare` read - record bytes 0, 25, 32, the name bytes from 33 on and on a match the
bytes 6..9 and 14..17 - is below 2048; the logging loop computes the result of the record
loop of `low_find`. -/
theorem low_find_reads_in_bounds (sb : Nat → Nat) (dirlen isdir : Nat) (fname : Nat → Nat)
    (fnlen : Int) (hok : chain_ok sb 2049 0 = true) :
    (∀ k ∈ (low_find_sector_log sb dirlen isdir fname fnlen 2049 0).2, k < 2048) ∧
    (low_find_sector_log sb dirlen isdir fname fnlen 2049 0).1 =
      low_find_sector sb dirlen isdir fname fnlen 2049 0 :=
  ⟨low_find_sector_log_lt sb dirlen isdir fname fnlen 2049 0 hok,
    low_find_sector_log_fst sb dirlen isdir fname fnlen 2049 0⟩

/-- Witness for C20: the root directory sector of the sample disc, searched for
`MAIN.BIN`; the reads are those of the four records and of the extent of the last. -/
theorem low_find_reads_in_bounds_witness :
    chain_ok (sample_disc 250) 2049 0 = true ∧
    (∀ k ∈ (low_find_sector_log (sample_disc 250) 4096 0
      (ptr (bytes ['M', 'A', 'I', 'N', '.', 'B', 'I', 'N'])) 8 2049 0).2, k < 2048) ∧
    (low_find_sector_log (sample_disc 250) 4096 0
      (ptr (bytes ['M', 'A', 'I', 'N', '.', 'B', 'I', 'N'])) 8 2049 0).1 =
      some (some (252, 50000)) :=
  ⟨by decide,
    (low_find_reads_in_bounds (sample_disc 250) 4096 0
      (ptr (bytes ['M', 'A', 'I', 'N', '.', 'B', 'I', 'N'])) 8 (by decide)).1,
    by decide⟩

/-! ### Recursion of `pread` when a transfer fails -/

theorem pread_tail_calls_fst
    (selfL : Machine → Nat → Nat → Nat → Option ((Int × Machine) × List (Nat × Nat × Nat)))
    (self : Machine → Nat → Nat → Nat → Option (Int × Machine))
    (h : ∀ m b n o, (selfL m b n o).map Prod.fst = self m b n o)
    (m : Machine) (buf nbyte offset t : Nat) :
    (pread_tail_calls selfL m buf nbyte offset t).map Prod.fst =
      pread_tail self m buf nbyte offset t := by
  unfold pread_tail_calls pread_tail
  by_cases h0 : nbyte = 0
  · rw [if_pos h0, if_pos h0]
    rfl
  rw [if_neg h0, if_neg h0]
  by_cases hs : 2048 < (offset % 2048 + nbyte) % 2 ^ 32
  · rw [if_pos hs, if_pos hs, ← h m buf (2048 - offset % 2048) offset]
    rcases selfL m buf (2048 - offset % 2048) offset with _ | x
    · rfl
    · simp only [Option.map_some']
      by_cases hx : x.1.1 < 0
      · rw [if_pos hx, if_pos hx]
        rfl
      · rw [if_neg hx, if_neg hx, ← h]
        rcases selfL x.1.2 ((buf + x.1.1.toNat) % 2 ^ 32)
            ((nbyte + 2 ^ 32 - x.1.1.toNat) % 2 ^ 32) ((offset + x.1.1.toNat) % 2 ^ 32)
          with _ | y
        · rfl
        · simp only [Option.map_some']
          by_cases hy : y.1.1 < 0
          · rw [if_pos hy, if_pos hy]
            rfl
          · rw [if_neg hy, if_neg hy]
            rfl
  · rw [if_neg hs, if_neg hs]
    simp only
    split_ifs
    · rfl
    · rcases memcpy (cdrom_read_sectors_ex m Buf.scratch
        ((m.fh.sec0 + offset / 2048) % 2 ^ 32) 1).2 buf (offset % 2048) nbyte with _ | m1
      · rfl
      · rfl

/-- Dropping the list of calls from `pread_calls` gives `pread_fuel`. -/
theorem pread_calls_fst : ∀ (F depth : Nat) (m : Machine) (buf nbyte offset : Nat),
    (pread_calls F depth m buf nbyte offset).map Prod.fst = pread_fuel F m buf nbyte offset := by
  intro F
  induction F with
  | zero => intro depth m buf nbyte offset; rfl
  | succ F ih =>
    intro depth m buf nbyte offset
    rw [pread_calls, pread_fuel]
    by_cases hoff : m.fh.len ≤ offset
    · rw [if_pos hoff, if_pos hoff]
      rfl
    rw [if_neg hoff, if_neg hoff]
    simp only
    generalize (if m.fh.len < (offset + nbyte) % 2 ^ 32 then m.fh.len - offset
      else nbyte) = n
    by_cases hb : 2048 ≤ n ∧ offset % 2048 = 0
    · rw [if_pos hb, if_pos hb]
      by_cases hx : (cdrom_read_sectors_ex m (Buf.user buf)
          ((m.fh.sec0 + offset / 2048) % 2 ^ 32) (n / 2048)).1 ≠ 0
      · rw [if_pos hx, if_pos hx]
        rfl
      · rw [if_neg hx, if_neg hx, Option.map_map,
          ← pread_tail_calls_fst (pread_calls F (depth + 1)) (pread_fuel F) (ih (depth + 1))]
        rfl
    · rw [if_neg hb, if_neg hb, Option.map_map,
        ← pread_tail_calls_fst (pread_calls F (depth + 1)) (pread_fuel F) (ih (depth + 1))]
      rfl

/-- C15, the failing inputs: `pread_calls` is `pread` with the list of its calls
`(depth, nbyte, offset)`.  On the opened sample file with the first sector transfer
aborted, `pread(buf, 3000, 1000)` takes the error code 4 of its first sub-read for a byte
count, so its second sub-read starts at offset 1004, is itself split and makes two calls
at depth 2.  On a file of 2049 bytes with the first transfer aborted, `pread(buf, 2, 2047)`
calls its second sub-read with the count `2 - 4 = 4294967294` (modulo `2 ^ 32`), larger
than its own count 2; that call is beyond the end of the file and returns 0, so the
result is 4.  When every transfer completes, `pread(buf, 3000, 1000)` makes its two
sub-reads with 1048 and 1952 bytes and neither recurses. -/
theorem pread_recursion_under_failure :
    (∀ (m : Machine) (buf nbyte offset : Nat),
      (pread_calls (nbyte + 2) 0 m buf nbyte offset).map Prod.fst = pread m buf nbyte offset) ∧
    (pread_calls (3000 + 2) 0 (sample_open [(3, 0)]) 0x8c010000 3000 1000).map
      (fun x => (x.1.1, x.2)) =
      some (3000, [(0, 3000, 1000), (1, 1048, 1000), (1, 2996, 1004), (2, 1044, 1004),
        (2, 1952, 2048)]) ∧
    (pread_calls (2 + 2) 0 (sample_file 2049 [(3, 0)]) 0x8c010000 2 2047).map
      (fun x => (x.1.1, x.2)) =
      some (4, [(0, 2, 2047), (1, 1, 2047), (1, 4294967294, 2051)]) ∧
    (pread_calls (3000 + 2) 0 (sample_open []) 0x8c010000 3000 1000).map
      (fun x => (x.1.1, x.2)) =
      some (3000, [(0, 3000, 1000), (1, 1048, 1000), (1, 1952, 2048)]) := by
  refine ⟨fun m buf nbyte offset => pread_calls_fst (nbyte + 2) 0 m buf nbyte offset,
    by decide, by decide, by decide⟩

/-! ### The read loop of `boot_the_menu` -/

theorem read_eof (m : Machine) (buf : Nat) (h : m.fh.len ≤ m.fh.loc) :
    read m buf 2048 = some (0, m) := by
  unfold read pread
  rw [pread_fuel, if_pos h]
  simp

/-- A read of 2048 bytes at a sector-aligned cursor inside the file, to an even address,
on a drive whose commands complete. -/
theorem read_aligned (m : Machine) (buf : Nat) (hok : AllOk m.polls) (hbuf : buf < 2 ^ 32)
    (hbe : buf % 2 = 0) (hc : m.fh.loc % 2048 = 0) (hlt : m.fh.loc < m.fh.len)
    (hL : m.fh.len < 2 ^ 31) :
    ∃ m1, read m buf 2048 = some (((min 2048 (m.fh.len - m.fh.loc) : Nat) : Int), m1) ∧
      m1.fh = { sec0 := m.fh.sec0, loc := m.fh.loc + min 2048 (m.fh.len - m.fh.loc),
                len := m.fh.len } ∧
      m1.disc = m.disc ∧ AllOk m1.polls ∧
      ∀ x, m1.mem x =
        if (x + 2 ^ 32 - buf) % 2 ^ 32 < min 2048 (m.fh.len - m.fh.loc)
        then sector_data m.disc m.fh.sec0 (m.fh.loc + (x + 2 ^ 32 - buf) % 2 ^ 32) else m.mem x := by
  obtain ⟨m1, h1, hf⟩ := pread_fuel_nosplit 2049 m buf 2048 m.fh.loc hok hbuf (by omega)
    (by omega) (by omega) (Or.inl hc) (fun _ _ => hbe)
  have hp : pread m buf 2048 m.fh.loc =
      some (((min 2048 (m.fh.len - m.fh.loc) : Nat) : Int), m1) := h1
  unfold read
  rw [hp]
  simp only
  have hpos : (0 : Int) < ((min 2048 (m.fh.len - m.fh.loc) : Nat) : Int) := by omega
  rw [if_pos hpos, Int.toNat_ofNat, hf.1]
  have e : (m.fh.loc + min 2048 (m.fh.len - m.fh.loc)) % 2 ^ 32 =
      m.fh.loc + min 2048 (m.fh.len - m.fh.loc) := Nat.mod_eq_of_lt (by omega)
  rw [e]
  exact ⟨_, rfl, rfl, hf.2.1, hf.2.2.1, hf.2.2.2⟩

theorem read_sizes_zero : read_sizes 0 = [0] := by
  simp [read_sizes]

theorem read_sizes_whole (rem : Nat) (h : 2048 ≤ rem) :
    read_sizes rem = 2048 :: read_sizes (rem - 2048) := by
  unfold read_sizes
  have e1 : rem / 2048 = (rem - 2048) / 2048 + 1 := by omega
  have e2 : rem % 2048 = (rem - 2048) % 2048 := by omega
  rw [e1, e2, List.replicate_succ]
  rfl

theorem read_sizes_last (rem : Nat) (h0 : 0 < rem) (h : rem < 2048) :
    read_sizes rem = [(rem : Int), 0] := by
  unfold read_sizes
  have e1 : rem / 2048 = 0 := by omega
  have e2 : rem % 2048 = rem := by omega
  rw [e1, e2, if_neg (by omega)]
  rfl

theorem mem_append (f0 f1 f2 data : Nat → Nat) (buf off n1 n2 : Nat) (hbuf : buf < 2 ^ 32)
    (hlen : n1 + n2 ≤ 2 ^ 32)
    (h1 : ∀ x, f1 x = if (x + 2 ^ 32 - buf) % 2 ^ 32 < n1
      then data (off + (x + 2 ^ 32 - buf) % 2 ^ 32) else f0 x)
    (h2 : ∀ x, f2 x = if (x + 2 ^ 32 - (buf + n1) % 2 ^ 32) % 2 ^ 32 < n2
      then data (off + n1 + (x + 2 ^ 32 - (buf + n1) % 2 ^ 32) % 2 ^ 32) else f1 x) :
    ∀ x, f2 x = if (x + 2 ^ 32 - buf) % 2 ^ 32 < n1 + n2
      then data (off + (x + 2 ^ 32 - buf) % 2 ^ 32) else f0 x := by
  intro x
  rw [h2 x, h1 x]
  by_cases hd2 : (x + 2 ^ 32 - (buf + n1) % 2 ^ 32) % 2 ^ 32 < n2
  · rw [if_pos hd2, if_pos (by omega)]
    congr 1
    omega
  · rw [if_neg hd2]
    by_cases hd1 : (x + 2 ^ 32 - buf) % 2 ^ 32 < n1
    · rw [if_pos hd1, if_pos (by omega)]
    · rw [if_neg hd1, if_neg (by omega)]

/-- The read loop from a cursor that is sector-aligned or at the end of the file, on a
drive whose commands complete: the reads return the sizes `read_sizes` lists, the loop ends
with `cur` and the cursor at the length of the file, and the rest of the file is in memory
from `dst + cur` on. -/
theorem boot_loop_spec (dst : Nat) (hdst : dst % 2048 = 0) :
    ∀ (fuel : Nat) (m : Machine), AllOk m.polls → m.fh.len < 2 ^ 31 → m.fh.loc ≤ m.fh.len →
      (m.fh.loc % 2048 = 0 ∨ m.fh.loc = m.fh.len) →
      (m.fh.len - m.fh.loc + 2047) / 2048 + 1 ≤ fuel →
      ∃ m1, boot_loop dst fuel m m.fh.loc =
          some (read_sizes (m.fh.len - m.fh.loc), m.fh.len, m1) ∧
        m1.fh = { sec0 := m.fh.sec0, loc := m.fh.len, len := m.fh.len } ∧
        m1.disc = m.disc ∧ AllOk m1.polls ∧
        ∀ x, m1.mem x =
          if (x + 2 ^ 32 - (dst + m.fh.loc) % 2 ^ 32) % 2 ^ 32 < m.fh.len - m.fh.loc
          then sector_data m.disc m.fh.sec0
            (m.fh.loc + (x + 2 ^ 32 - (dst + m.fh.loc) % 2 ^ 32) % 2 ^ 32)
          else m.mem x := by
  intro fuel
  induction fuel with
  | zero => intro m _ _ _ _ h; omega
  | succ f ih =>
    intro m hok hL hle hal hfuel
    rw [boot_loop]
    by_cases hend : m.fh.len ≤ m.fh.loc
    · have e : m.fh.loc = m.fh.len := by omega
      rw [read_eof m _ hend]
      simp only
      rw [if_neg (by decide)]
      have e0 : m.fh.len - m.fh.loc = 0 := by omega
      rw [e0, read_sizes_zero]
      exact ⟨m, by rw [e], congrArg (fun l => FH.mk m.fh.sec0 l m.fh.len) e, rfl, hok,
        fun x => by rw [if_neg (by omega)]⟩
    · have hlt : m.fh.loc < m.fh.len := by omega
      have hc : m.fh.loc % 2048 = 0 := by omega
      obtain ⟨m1, hr, hfh, hdisc, hok1, hmem⟩ := read_aligned m ((dst + m.fh.loc) % 2 ^ 32) hok
        (Nat.mod_lt _ (by decide)) (by omega) hc hlt hL
      rw [hr]
      simp only
      have hpos : (0 : Int) < ((min 2048 (m.fh.len - m.fh.loc) : Nat) : Int) := by omega
      rw [if_pos hpos, Int.toNat_ofNat]
      have e : (m.fh.loc + min 2048 (m.fh.len - m.fh.loc)) % 2 ^ 32 = m1.fh.loc := by
        rw [hfh]
        exact Nat.mod_eq_of_lt (by omega)
      rw [e]
      have hlen1 : m1.fh.len = m.fh.len := by rw [hfh]
      have hloc1 : m1.fh.loc = m.fh.loc + min 2048 (m.fh.len - m.fh.loc) := by rw [hfh]
      have hsec1 : m1.fh.sec0 = m.fh.sec0 := by rw [hfh]
      have hsz : read_sizes (m.fh.len - m.fh.loc) =
          ((min 2048 (m.fh.len - m.fh.loc) : Nat) : Int) ::
            read_sizes (m1.fh.len - m1.fh.loc) := by
        rw [hlen1, hloc1]
        by_cases hw : 2048 ≤ m.fh.len - m.fh.loc
        · have e1 : min 2048 (m.fh.len - m.fh.loc) = 2048 := by omega
          have e2 : m.fh.len - (m.fh.loc + 2048) = m.fh.len - m.fh.loc - 2048 := by omega
          rw [e1, e2]
          exact read_sizes_whole _ hw
        · have e1 : min 2048 (m.fh.len - m.fh.loc) = m.fh.len - m.fh.loc := by omega
          have e2 : m.fh.len - (m.fh.loc + (m.fh.len - m.fh.loc)) = 0 := by omega
          rw [e1, e2, read_sizes_zero]
          exact read_sizes_last _ (by omega) (by omega)
      obtain ⟨m2, hb, hfh2, hdisc2, hok2, hmem2⟩ := ih m1 hok1 (by omega) (by omega) (by omega)
        (by omega)
      rw [hb]
      simp only
      refine ⟨m2, ?_, ?_, hdisc2.trans hdisc, hok2, ?_⟩
      · rw [hsz, hlen1]
      · rw [hfh2, hlen1, hsec1]
      · have hsum : m.fh.len - m.fh.loc =
            min 2048 (m.fh.len - m.fh.loc) + (m.fh.len - m1.fh.loc) := by omega
        rw [hsum]
        apply mem_append m.mem m1.mem m2.mem (sector_data m.disc m.fh.sec0)
          ((dst + m.fh.loc) % 2 ^ 32) m.fh.loc _ _ (Nat.mod_lt _ (by decide)) (by omega) hmem
        intro x
        rw [hmem2 x, hdisc, hsec1, hlen1]
        have eb : (dst + m1.fh.loc) % 2 ^ 32 =
            ((dst + m.fh.loc) % 2 ^ 32 + min 2048 (m.fh.len - m.fh.loc)) % 2 ^ 32 := by omega
        rw [eb, hloc1]

theorem cdrom_exec_cmd_ok (m : Machine) (cmd : Nat) (p : Param) (h : AllOk m.polls) :
    AllOk (cdrom_exec_cmd m cmd p).2.polls := by
  rw [cdrom_exec_cmd_polls]
  exact (wait_cmd_ok _ h).2

theorem reinit_loop_ok : ∀ (t : Nat) (r : Int) (m : Machine), AllOk m.polls →
    AllOk (reinit_loop t r m).2.2.polls := by
  intro t
  induction t with
  | zero => intro r m h; exact h
  | succ t ih =>
    intro r m h
    have h1 := cdrom_exec_cmd_ok m CMD_INIT Param.null h
    rw [reinit_loop]
    by_cases c1 : (cdrom_exec_cmd m CMD_INIT Param.null).1 = 0
    · rw [if_pos c1]; exact h1
    · rw [if_neg c1]
      by_cases c2 : (cdrom_exec_cmd m CMD_INIT Param.null).1 = ERR_NO_DISC
      · rw [if_pos c2]; exact h1
      · rw [if_neg c2]
        by_cases c3 : (cdrom_exec_cmd m CMD_INIT Param.null).1 = ERR_SYS
        · rw [if_pos c3]; exact h1
        · rw [if_neg c3]; exact ih _ _ h1

theorem cdrom_reinit_ok (m : Machine) (h : AllOk m.polls) : AllOk (cdrom_reinit m).2.polls := by
  have h1 := reinit_loop_ok (10 * 1000) (-1) m h
  unfold cdrom_reinit
  rcases hx : reinit_loop (10 * 1000) (-1) m with ⟨_ | t, r, m1⟩
  · rw [hx] at h1; exact h1
  · rw [hx] at h1
    simp only
    split_ifs <;> exact h1

theorem cdrom_init_ok (m : Machine) (h : AllOk m.polls) : AllOk (cdrom_init m).2.polls :=
  cdrom_reinit_ok _ h

theorem find_root_ok (m : Machine) (h : AllOk m.polls) : AllOk (find_root m).2.2.2.polls := by
  unfold find_root
  simp only
  exact (read_scratch_ok _ _ (cdrom_exec_cmd_ok _ _ _ (cdrom_reinit_ok m h))).2.2.2.2.1

theorem low_find_loop_ok (isdir : Nat) (fname : Nat → Nat) (fnlen : Int) :
    ∀ (fuel : Nat) (m : Machine) (sec dirlen psec plen : Nat) (y : Int × Nat × Nat × Machine),
      AllOk m.polls → low_find_loop isdir fname fnlen fuel m sec dirlen psec plen = some y →
      AllOk y.2.2.2.polls := by
  intro fuel
  induction fuel with
  | zero => intro m sec dirlen psec plen y _ h; simp [low_find_loop] at h
  | succ f ih =>
    intro m sec dirlen psec plen y hok h
    rw [low_find_loop] at h
    by_cases hd : 0 < dirlen
    · rw [if_pos hd] at h
      simp only at h
      have h1 := (read_scratch_ok m sec hok).2.2.2.2.1
      rcases hs : low_find_sector (cdrom_read_sectors_ex m Buf.scratch sec 1).2.sector_buffer
          dirlen isdir fname fnlen 2049 0 with _ | (_ | found)
      · rw [hs] at h; simp at h
      · rw [hs] at h
        exact ih _ _ _ _ _ y h1 h
      · rw [hs] at h
        simp only [Option.some.injEq] at h
        rw [← h]
        exact h1
    · rw [if_neg hd] at h
      simp only [Option.some.injEq] at h
      rw [← h]
      exact hok

/-- After `open` on a drive whose commands complete the cursor is 0 and the commands
that follow still complete. -/
theorem open_file_ok (m mo : Machine) (path : Nat → Nat) (path_len r : Int)
    (hok : AllOk m.polls) (h : open_file m path path_len = some (r, mo)) :
    AllOk mo.polls ∧ mo.fh.loc = 0 := by
  unfold open_file at h
  simp only at h
  rcases hy : low_find (find_root m).2.2.2 (find_root m).2.1 (find_root m).2.2.1 0
      (find_root m).2.1 (find_root m).2.2.1 path path_len with _ | y
  · rw [hy] at h; simp at h
  · rw [hy] at h
    simp only [Option.some.injEq, Prod.mk.injEq] at h
    rw [← h.2]
    exact ⟨low_find_loop_ok _ _ _ _ _ _ _ _ _ y (find_root_ok m hok) hy, rfl⟩

theorem sample_booted_open :
    open_file (cdrom_init (sample_machine [])).2
      (ptr (bytes ['M', 'A', 'I', 'N', '.', 'B', 'I', 'N'])) 8 = some (0, sample_booted) := by
  obtain ⟨m1, h⟩ := open_file_total (cdrom_init (sample_machine [])).2
    (ptr (bytes ['M', 'A', 'I', 'N', '.', 'B', 'I', 'N'])) 8
  unfold sample_booted
  rw [h]

theorem sample_booted_fh : sample_booted.fh = { sec0 := 252, loc := 0, len := 50000 } := by
  decide

theorem sample_booted_ok : AllOk sample_booted.polls :=
  (open_file_ok _ _ _ _ _ (cdrom_init_ok _ (fun _ hp => by simp [sample_machine] at hp))
    sample_booted_open).1

theorem sample_booted_disc : sample_booted.disc = sample_disc := by
  rfl

/-- C14: on a machine with a file of length `L < 2 ^ 31` open at cursor 0, a drive whose
commands all complete and a sector-aligned destination `dst`, the read loop of
`boot_the_menu` ends within `⌈L / 2048⌉ + 1` iterations: the reads return `⌈L / 2048⌉`
positive values (2048 for each whole sector, then `L % 2048` if that is not 0) followed by
one 0; it ends with `cur = L` and the cursor of the handle at `L`; memory holds bytes
`0 .. L - 1` of the file, in order, at `dst .. dst + L - 1` (addresses modulo `2 ^ 32`) and
is unchanged elsewhere; and when `dst` is `bin` and the machine is the one `open` leaves
after `cdrom_init`, `boot_the_menu` reaches the transfer of control to `bin`. -/
theorem boot_loads_whole_file (dst fuel : Nat) (m : Machine) (hok : AllOk m.polls)
    (hdst : dst % 2048 = 0) (hloc : m.fh.loc = 0) (hL : m.fh.len < 2 ^ 31)
    (hfuel : (m.fh.len + 2047) / 2048 + 1 ≤ fuel) :
    ∃ (pos : List Int) (m1 : Machine),
      boot_loop dst fuel m 0 = some (pos ++ [0], m.fh.len, m1) ∧
      pos = List.replicate (m.fh.len / 2048) 2048 ++
        (if m.fh.len % 2048 = 0 then [] else [((m.fh.len % 2048 : Nat) : Int)]) ∧
      pos.length = (m.fh.len + 2047) / 2048 ∧ (∀ r ∈ pos, 0 < r) ∧
      m1.fh = { sec0 := m.fh.sec0, loc := m.fh.len, len := m.fh.len } ∧
      dest_bytes m1 dst m.fh.len = naive_read m.disc m.fh.sec0 0 m.fh.len ∧
      (∀ x, m.fh.len ≤ (x + 2 ^ 32 - dst % 2 ^ 32) % 2 ^ 32 → m1.mem x = m.mem x) ∧
      (dst = bin → ∀ m0 : Machine,
        open_file (cdrom_init m0).2 (ptr (bytes ['M', 'A', 'I', 'N', '.', 'B', 'I', 'N'])) 8 =
          some (0, m) →
        boot_the_menu fuel m0 = some (bin, pos ++ [0], m.fh.len, m1)) := by
  obtain ⟨m1, hb, hfh, _, _, hmem⟩ := boot_loop_spec dst hdst fuel m hok hL (by omega)
    (Or.inl (by omega)) (by omega)
  rw [hloc] at hb
  rw [Nat.sub_zero] at hb
  simp only [hloc, Nat.sub_zero, Nat.zero_add, Nat.add_zero] at hmem
  refine ⟨_, m1, hb, rfl, ?_, ?_, hfh, ?_, ?_, ?_⟩
  · rw [List.length_append, List.length_replicate]
    by_cases h0 : m.fh.len % 2048 = 0
    · rw [if_pos h0]
      simp only [List.length_nil]
      omega
    · rw [if_neg h0]
      simp only [List.length_singleton]
      omega
  · intro r hr
    rcases List.mem_append.1 hr with h1 | h1
    · rw [(List.mem_replicate.1 h1).2]
      decide
    · by_cases h0 : m.fh.len % 2048 = 0
      · rw [if_pos h0] at h1
        simp at h1
      · rw [if_neg h0] at h1
        rw [List.mem_singleton.1 h1]
        omega
  · unfold dest_bytes naive_read
    apply List.map_congr_left
    intro k hk
    have hk1 : k < m.fh.len := List.mem_range.1 hk
    rw [hmem]
    have e : ((dst + k) % 2 ^ 32 + 2 ^ 32 - dst % 2 ^ 32) % 2 ^ 32 = k := by omega
    rw [e, if_pos hk1]
    simp only [sector_data, Nat.zero_add]
  · intro x hx
    rw [hmem x, if_neg (by omega)]
  · intro hd m0 ho
    unfold boot_the_menu
    rw [ho]
    simp only
    rw [← hd, hb]
    rfl

/-- Witness for C14: `boot_the_menu` on the sample disc, where `MAIN.BIN` has 50000 bytes:
24 reads of 2048 bytes, one of 848 bytes and a final read that returns 0. -/
theorem boot_loads_whole_file_witness :
    ∃ (pos : List Int) (m1 : Machine),
      boot_loop bin 26 sample_booted 0 = some (pos ++ [0], 50000, m1) ∧
      pos = List.replicate 24 2048 ++ [848] ∧
      boot_the_menu 26 (sample_machine []) = some (bin, pos ++ [0], 50000, m1) ∧
      m1.fh = { sec0 := 252, loc := 50000, len := 50000 } ∧
      dest_bytes m1 bin 50000 = naive_read sample_disc 252 0 50000 := by
  have h := boot_loads_whole_file bin 26 sample_booted sample_booted_ok (by decide)
    (by rw [sample_booted_fh]) (by rw [sample_booted_fh]; decide)
    (by rw [sample_booted_fh]; decide)
  rw [sample_booted_disc, sample_booted_fh] at h
  obtain ⟨pos, m1, h1, h2, _, _, h5, h6, _, h8⟩ := h
  exact ⟨pos, m1, h1, h2, h8 rfl _ sample_booted_open, h5, h6⟩

end Reloader
